import Mathlib

/-!
Shallow embedding of the Qwinto game engine
(`open_spiel/games/qwinto.cc`, `open_spiel/games/qwinto.h`).

The state machine, legality engine, chance-outcome tables, terminal test and
scoring of `QwintoState` are translated definition by definition from the
C++ source.  Fatal errors (`SPIEL_CHECK_*`, `SpielFatalError`) are modelled
by `Option`: a function returns `none` exactly when the C++ code would abort.
Machine integers are modelled by `Int`/`Nat`; all values involved stay far
from any overflow boundary.
-/

namespace Qwinto

/-- Phase of a turn, from `enum class Phase` in qwinto.h. -/
inductive Phase where
  | selectDice
  | rollDice
  | submitPoints
deriving DecidableEq, Repr

/-- From qwinto.h: `kDefaultNumDice = 3`. -/
def kDefaultNumDice : Nat := 3

/-- From qwinto.h: `kDefaultNumFields = 9`. -/
def kDefaultNumFields : Nat := 9

/-- From qwinto.cc: `kDefaultMissPoints = -5`. -/
def kDefaultMissPoints : Int := -5

/-- From qwinto.cc: `kDefaultTerminationPoints = -20`. -/
def kDefaultTerminationPoints : Int := -20

/-- Modelled from the spec: the constant `kDefaultNumDiceRolls` (the bound on
re-rolls per turn) is used by qwinto.cc but its definition is not under
`src/`; the spec says only that the number of re-rolls is a fixed bound
("number of re-rolls allowed", one-hot encoded in the observation).  We fix
the value 3; every theorem below that mentions it does so symbolically, so no
claim depends on the concrete value. -/
def kDefaultNumDiceRolls : Nat := 3

/-- Die colour flags, from `enum Die` in qwinto.h (`kInvalidDie = 0`,
`kOrange = 1`, `kPurple = 2`, `kYellow = 4`).  A dice selection is a bitmask
over these flags. -/
def kOrange : Nat := 1

/-- From qwinto.h: `kPurple = 2`. -/
def kPurple : Nat := 2

/-- From qwinto.h: `kYellow = 4`. -/
def kYellow : Nat := 4

/-- Modelled from the spec: the sentinel action `kActionMiss` is used by
qwinto.cc but defined outside `src/`.  `DoApplyActions` executes
`scores_[p * (kDefaultNumDice * kDefaultNumFields + 1) + actions[p]] +=
kDefaultMissPoints` for a miss, and the spec says a miss "decrements ...
their own miss slot", i.e. the cell at offset `kDefaultNumDice *
kDefaultNumFields = 27`; hence `kActionMiss = 27`. -/
def kActionMiss : Int := 27

/-- Modelled from the spec: the sentinel action `kActionSkip` is used by
qwinto.cc but defined outside `src/`.  The spec calls it "a sentinel skip",
distinct from all board-cell indices (0..26) and from the miss sentinel; we
model it as the next free id, 28.  No claim depends on its numeric value,
only on its being distinct from the cell indices and from `kActionMiss`. -/
def kActionSkip : Int := 28

/-- Modelled from the spec: the host framework's player-identity sentinel for
chance nodes ("Player-identity sentinels for chance, simultaneous/all
players, and terminal/no player distinct from real player indices 0..N-1");
OpenSpiel uses `kChancePlayerId = -1`. -/
def kChancePlayerId : Int := -1

/-- Modelled from the spec: the host framework's sentinel for the
simultaneous "all players" decision mode; OpenSpiel uses
`kSimultaneousPlayerId = -2`. -/
def kSimultaneousPlayerId : Int := -2

/-- Modelled from the spec: the host framework's sentinel for terminal
states; OpenSpiel uses `kTerminalPlayerId = -4`. -/
def kTerminalPlayerId : Int := -4

/-- Cells per player board: `kDefaultNumDice * kDefaultNumFields + 1` = 28
(27 score slots plus the miss slot), the stride used everywhere in
qwinto.cc. -/
def boardSize : Nat := kDefaultNumDice * kDefaultNumFields + 1

/-- The mutable members of `QwintoState` (qwinto.h): `player_`,
`current_player_`, `num_dice_rolls_`, `dice_`, `dice_outcome_`, `phase_`,
`scores_`.  `player` is an `Int` because it also takes the negative
framework sentinels; `currentPlayer` is only ever assigned
`(current_player_ + 1) % num_players_` starting from 0, so it is a `Nat`.
`dice` holds the colour bitmask (`static_cast<Die>(action)` from a
selection action in 1..7). -/
structure QwintoState where
  player : Int
  currentPlayer : Nat
  numDiceRolls : Nat
  dice : Nat
  diceOutcome : Int
  phase : Phase
  scores : List Int
deriving DecidableEq, Repr

/-- Reading `scores_[i]`; out-of-range reads (which the C++ never performs
on the states we consider) default to 0. -/
def scoreAt (sc : List Int) (i : Nat) : Int := sc.getD i 0

/-- Board cell `c` of player `p`: `scores_[p * boardSize + c]`. -/
def cell (sc : List Int) (p c : Nat) : Int := scoreAt sc (p * boardSize + c)

/-- The constructor `QwintoState::QwintoState`: all counters zero, phase
`kSelectDice`, `scores_` a zero vector of length `N * boardSize`. -/
def initState (numPlayers : Nat) : QwintoState where
  player := 0
  currentPlayer := 0
  numDiceRolls := 0
  dice := 0
  diceOutcome := 0
  phase := Phase.selectDice
  scores := List.replicate (numPlayers * boardSize) 0

/-- `QwintoState::IsTerminal`: true iff some player's miss slot
(`scores_[(p + 1) * offset - 1]`) is at most `kDefaultTerminationPoints`. -/
def isTerminal (numPlayers : Nat) (s : QwintoState) : Bool :=
  (List.range numPlayers).any fun p =>
    decide (scoreAt s.scores ((p + 1) * boardSize - 1) ≤ kDefaultTerminationPoints)

/-- The dice-count computation in `QwintoState::ChanceOutcomes`:
`((dice_ & kOrange) != 0) + ((dice_ & kYellow) != 0) + ((dice_ & kPurple) != 0)`. -/
def popcountDice (d : Nat) : Nat :=
  (if d &&& kOrange ≠ 0 then 1 else 0) +
  (if d &&& kYellow ≠ 0 then 1 else 0) +
  (if d &&& kPurple ≠ 0 then 1 else 0)

/-- Number of ways to obtain the sum `s` with `n` fair six-sided dice (the
exact convolution the chance tables of `QwintoState::ChanceOutcomes` encode). -/
def dieCount : Nat → Nat → Nat
  | 0, 0 => 1
  | 0, _ + 1 => 0
  | n + 1, s => ((List.range 6).map fun d =>
      if d + 1 ≤ s then dieCount n (s - (d + 1)) else 0).sum

/-- The literal outcome tables from the `switch(num_dice)` in
`QwintoState::ChanceOutcomes` (action id, probability). -/
def outcomeTable : Nat → List (Int × ℚ)
  | 1 => [(1, 1/6), (2, 1/6), (3, 1/6), (4, 1/6), (5, 1/6), (6, 1/6)]
  | 2 => [(2, 1/36), (3, 2/36), (4, 3/36), (5, 4/36), (6, 5/36), (7, 6/36),
          (8, 5/36), (9, 4/36), (10, 3/36), (11, 2/36), (12, 1/36)]
  | 3 => [(3, 1/216), (4, 3/216), (5, 6/216), (6, 10/216), (7, 15/216),
          (8, 21/216), (9, 25/216), (10, 27/216), (11, 27/216), (12, 25/216),
          (13, 21/216), (14, 15/216), (15, 10/216), (16, 6/216), (17, 3/216),
          (18, 1/216)]
  | _ => []

/-- `QwintoState::ChanceOutcomes`: fatal (`none`) unless the state is a
chance node (framework `IsChanceNode()` is `CurrentPlayer() ==
kChancePlayerId`, i.e. not terminal and `player_ = -1`) and the popcount of
the dice mask lies in 1..kDefaultNumDice. -/
def chanceOutcomes (numPlayers : Nat) (s : QwintoState) : Option (List (Int × ℚ)) :=
  if isTerminal numPlayers s = false ∧ s.player = kChancePlayerId then
    if 1 ≤ popcountDice s.dice ∧ popcountDice s.dice ≤ kDefaultNumDice then
      some (outcomeTable (popcountDice s.dice))
    else none
  else none

/-- Modelled from the spec: the framework helper `State::LegalChanceOutcomes`
(not under `src/`) lists the action ids of `ChanceOutcomes()`. -/
def legalChanceOutcomes (numPlayers : Nat) (s : QwintoState) : Option (List Int) :=
  (chanceOutcomes numPlayers s).map (List.map Prod.fst)

/-- The `switch(i / kDefaultNumFields)` in `QwintoState::LegalActions`
assigning a die colour to each board row: row 0 is Orange, row 1 is
Yellow, row 2 is Purple. -/
def rowDie (i : Nat) : Nat :=
  match i / kDefaultNumFields with
  | 0 => kOrange
  | 1 => kYellow
  | 2 => kPurple
  | _ => 0

/-- The lambda `is_valid_column` in `QwintoState::LegalActions`, checking
the fixed cross-row pairing table against the current dice outcome.  `g c`
reads relative cell `c` of the asking player's board. -/
def is_valid_column (g : Nat → Int) (outcome : Int) (c : Nat) : Bool :=
  if c = 8 ∨ c = 18 then
    true
  else if c = 13 then
    decide (g 22 ≠ outcome)
  else if c = 22 then
    decide (g 13 ≠ outcome)
  else if c = 9 ∨ c = 19 ∨ c = 2 ∨ c = 12 ∨ c = 7 ∨ c = 17 then
    decide (g c ≠ outcome) && decide (g ((c + 10) % 20) ≠ outcome)
  else if c = 3 ∨ c = 23 then
    decide (g c ≠ outcome) && decide (g ((c + 20) % 40) ≠ outcome)
  else
    decide (g c ≠ outcome) && decide (g ((c + 10) % 30) ≠ outcome) &&
      decide (g ((c + 20) % 30) ≠ outcome)

/-- The body of the cell loop in the `kSubmitPoints` branch of
`QwintoState::LegalActions`: cell `i` survives all four `continue`s iff its
row colour is selected, it is unfilled, the row-order check holds (all cells
left of `i` are `< dice_outcome_`; all cells right of it are `== 0 ||
> dice_outcome_`), and `is_valid_column i` holds. -/
def submitCellOk (g : Nat → Int) (dice : Nat) (outcome : Int) (i : Nat) : Bool :=
  decide (dice &&& rowDie i ≠ 0) &&
  decide (g i = 0) &&
  ((List.range (i % kDefaultNumFields)).all fun j =>
    decide (g ((i / kDefaultNumFields) * kDefaultNumFields + j) < outcome)) &&
  ((List.range (kDefaultNumFields - (i % kDefaultNumFields + 1))).all fun j =>
    let a := g ((i / kDefaultNumFields) * kDefaultNumFields + i % kDefaultNumFields + 1 + j)
    decide (a = 0) || decide (a > outcome)) &&
  is_valid_column g outcome i

/-- The `kSubmitPoints` movelist of `QwintoState::LegalActions` before the
final sort: the surviving cell indices in loop order, then `kActionMiss` for
the active player or `kActionSkip` for every other player. -/
def submitMoves (s : QwintoState) (p : Nat) : List Int :=
  ((List.range (kDefaultNumDice * kDefaultNumFields)).filter fun i =>
      submitCellOk (fun c => cell s.scores p c) s.dice s.diceOutcome i).map Int.ofNat
    ++ [if p = s.currentPlayer then kActionMiss else kActionSkip]

/-- `QwintoState::LegalActions` for a real player index: empty when
terminal, otherwise the per-phase movelist followed by `std::sort`
(modelled by insertion sort; on integer lists any comparison sort produces
the same sorted list). -/
def legalActionsReal (numPlayers : Nat) (s : QwintoState) (p : Nat) : List Int :=
  if isTerminal numPlayers s then []
  else
    let movelist : List Int :=
      match s.phase with
      | Phase.selectDice =>
          [kOrange, kPurple, kYellow, kOrange ||| kPurple, kOrange ||| kYellow,
           kPurple ||| kYellow, kOrange ||| kPurple ||| kYellow].map Int.ofNat
      | Phase.rollDice =>
          (if s.numDiceRolls < kDefaultNumDiceRolls then [0] else []) ++ [1]
      | Phase.submitPoints => submitMoves s p
    movelist.insertionSort (· ≤ ·)

/-- Modelled from the spec: the framework helper
`SimMoveState::LegalFlatJointActions` (not under `src/`) flattens the joint
action space; the flat ids are the consecutive integers below the product of
the per-player legal-action counts. -/
def legalFlatJointActions (numPlayers : Nat) (s : QwintoState) : List Int :=
  (List.range ((List.range numPlayers).foldr
      (fun p acc => (legalActionsReal numPlayers s p).length * acc) 1)).map Int.ofNat

/-- `QwintoState::LegalActions(Player)`: dispatch on the framework
sentinels, then `SPIEL_CHECK_GE(player, 0)` / `SPIEL_CHECK_LT(player,
num_players_)` (fatal, i.e. `none`, outside the range), then the per-phase
movelist. -/
def legalActions (numPlayers : Nat) (s : QwintoState) (player : Int) : Option (List Int) :=
  if player = kSimultaneousPlayerId then some (legalFlatJointActions numPlayers s)
  else if player = kChancePlayerId then legalChanceOutcomes numPlayers s
  else if player = kTerminalPlayerId then some []
  else if 0 ≤ player ∧ player < numPlayers then
    some (legalActionsReal numPlayers s player.toNat)
  else none

/-- `QwintoState::DoApplyAction` for sequential (chance or active-player)
decisions.  The simultaneous branch (`ApplyFlatJointAction`) is the
framework's decoding of a flat joint id into a per-player action vector and
is modelled separately by `applyActions`; the step relation below applies
joint actions through `applyActions` directly, so this function is only
called at non-simultaneous nodes and returns `none` (never exercised) at a
simultaneous one. -/
def applyAction (numPlayers : Nat) (s : QwintoState) (a : Int) : Option QwintoState :=
  if s.player = kSimultaneousPlayerId then none
  else if s.player = kChancePlayerId then
    if s.phase = Phase.rollDice then
      some { s with diceOutcome := a, player := Int.ofNat s.currentPlayer }
    else none
  else if 0 ≤ s.player ∧ s.player < numPlayers then
    match s.phase with
    | Phase.selectDice =>
        some { s with dice := a.toNat, player := kChancePlayerId,
                      phase := Phase.rollDice, numDiceRolls := 1 }
    | Phase.rollDice =>
        if a = 0 then
          if s.numDiceRolls < kDefaultNumDiceRolls then
            some { s with numDiceRolls := s.numDiceRolls + 1, player := kChancePlayerId }
          else none
        else
          some { s with phase := Phase.submitPoints, player := kSimultaneousPlayerId }
    | Phase.submitPoints => none
  else none

/-- The player loop of `QwintoState::DoApplyActions`, applied to the score
vector: for each player `p` (starting at `p0`), a skip is fatal for the
active player and otherwise a no-op; a miss is fatal for a non-active player
and otherwise adds `kDefaultMissPoints` to `scores_[p * boardSize +
kActionMiss]`; any other action writes `dice_outcome_` to
`scores_[p * boardSize + actions[p]]`. -/
def applyEach (cur : Nat) (outcome : Int) : List Int → Nat → List Int → Option (List Int)
  | [], _, sc => some sc
  | a :: rest, p, sc =>
    if a = kActionSkip then
      if p = cur then none else applyEach cur outcome rest (p + 1) sc
    else if a = kActionMiss then
      if p = cur then
        applyEach cur outcome rest (p + 1)
          (sc.set (p * boardSize + 27) (scoreAt sc (p * boardSize + 27) + kDefaultMissPoints))
      else none
    else
      applyEach cur outcome rest (p + 1) (sc.set (p * boardSize + a.toNat) outcome)

/-- `QwintoState::DoApplyActions`: fatal unless the action vector has one
entry per player and the phase is `kSubmitPoints`; applies each player's
action, then resets the phase to `kSelectDice` and advances
`current_player_` round-robin. -/
def applyActions (numPlayers : Nat) (s : QwintoState) (acts : List Int) : Option QwintoState :=
  if acts.length = numPlayers ∧ s.phase = Phase.submitPoints then
    match applyEach s.currentPlayer s.diceOutcome acts 0 s.scores with
    | some sc =>
        some { s with scores := sc, phase := Phase.selectDice,
                      currentPlayer := (s.currentPlayer + 1) % numPlayers,
                      player := Int.ofNat ((s.currentPlayer + 1) % numPlayers) }
    | none => none
  else none

/-- One engine step driven only by previously returned legal actions: a
sequential decision by the player the state awaits, a chance resolution by a
declared chance outcome, or a joint submit action each of whose components
is legal for its player. -/
inductive Step (numPlayers : Nat) : QwintoState → QwintoState → Prop where
  | decision (s s' : QwintoState) (p : Nat) (a : Int) (l : List Int) :
      s.player = Int.ofNat p → p < numPlayers →
      legalActions numPlayers s (Int.ofNat p) = some l → a ∈ l →
      applyAction numPlayers s a = some s' → Step numPlayers s s'
  | chance (s s' : QwintoState) (a : Int) (l : List Int) :
      s.player = kChancePlayerId →
      legalActions numPlayers s kChancePlayerId = some l → a ∈ l →
      applyAction numPlayers s a = some s' → Step numPlayers s s'
  | joint (s s' : QwintoState) (acts : List Int) :
      s.player = kSimultaneousPlayerId → acts.length = numPlayers →
      (∀ p, p < numPlayers → ∃ l, legalActions numPlayers s (Int.ofNat p) = some l ∧
        acts.getD p 0 ∈ l) →
      applyActions numPlayers s acts = some s' → Step numPlayers s s'

/-- States reachable from the initial state by legal actions only. -/
def Reachable (numPlayers : Nat) (s : QwintoState) : Prop :=
  Relation.ReflTransGen (Step numPlayers) (initState numPlayers) s

/-- One colour row's contribution in `QwintoState::Returns`: if all
`kDefaultNumFields` cells of the row are positive, the value of the row's
last cell, otherwise the count of positive cells. -/
def rowContribution (g : Nat → Int) (r : Nat) : Int :=
  if ((List.range kDefaultNumFields).filter
        fun j => decide (0 < g (r * kDefaultNumFields + j))).length = kDefaultNumFields then
    g (r * kDefaultNumFields + (kDefaultNumFields - 1))
  else
    Int.ofNat ((List.range kDefaultNumFields).filter
      fun j => decide (0 < g (r * kDefaultNumFields + j))).length

/-- The five diagonal bonuses in `QwintoState::Returns`: for each listed
triple whose three cells are positive, the designated member's value. -/
def diagBonus (g : Nat → Int) : Int :=
  (if 0 < g 0 ∧ 0 < g 10 ∧ 0 < g 20 then g 20 else 0) +
  (if 0 < g 1 ∧ 0 < g 11 ∧ 0 < g 21 then g 1 else 0) +
  (if 0 < g 4 ∧ 0 < g 14 ∧ 0 < g 24 then g 4 else 0) +
  (if 0 < g 5 ∧ 0 < g 15 ∧ 0 < g 25 then g 15 else 0) +
  (if 0 < g 6 ∧ 0 < g 16 ∧ 0 < g 26 then g 26 else 0)

/-- One player's total in `QwintoState::Returns`: the three row
contributions, the diagonal bonuses, and the miss slot. -/
def playerReturn (sc : List Int) (p : Nat) : Int :=
  rowContribution (fun c => cell sc p c) 0 + rowContribution (fun c => cell sc p c) 1 +
    rowContribution (fun c => cell sc p c) 2 + diagBonus (fun c => cell sc p c) +
    cell sc p (kDefaultNumDice * kDefaultNumFields)

/-- `QwintoState::Returns`: the zero vector when not terminal, otherwise
each player's total.  The C++ returns `double`s whose values are exact
integers; we keep them as `Int`. -/
def returns (numPlayers : Nat) (s : QwintoState) : List Int :=
  if isTerminal numPlayers s = false then List.replicate numPlayers 0
  else (List.range numPlayers).map fun p => playerReturn s.scores p

/-- Booleans pushed into the observation tensor become 0/1 doubles. -/
def b2i (b : Bool) : Int := if b then 1 else 0

/-- `QwintoState::ObservationTensor`: fatal (`none`) unless `0 <= player <
num_players_`; otherwise the concatenation of the phase block, the re-roll
block, the selected-dice block (the raw masked values, as the C++ pushes
`dice_ & kOrange` etc. as numbers), the dice-outcome block, the
current-player block, and every player's raw board. -/
def observationTensor (numPlayers : Nat) (s : QwintoState) (player : Nat) :
    Option (List Int) :=
  if player < numPlayers then
    some ([b2i (s.phase = Phase.selectDice), b2i (s.phase = Phase.rollDice),
           b2i (s.phase = Phase.submitPoints)]
      ++ ((List.range kDefaultNumDiceRolls).map fun i => b2i (i = s.numDiceRolls))
      ++ [Int.ofNat (s.dice &&& kOrange), Int.ofNat (s.dice &&& kYellow),
          Int.ofNat (s.dice &&& kPurple)]
      ++ ((List.range 18).map fun i => b2i (Int.ofNat (i + 1) = s.diceOutcome))
      ++ ((List.range numPlayers).map fun p => b2i (p = s.currentPlayer))
      ++ s.scores)
  else none

/-- `QwintoGame::ObservationTensorShape` (a single dimension), and the
framework's `ObservationTensorSize` (the product of the shape's entries,
here that one dimension). -/
def observationTensorSize (numPlayers : Nat) : Nat :=
  3 + kDefaultNumDiceRolls + kDefaultNumDice + 18 + numPlayers +
    numPlayers * (kDefaultNumDice * kDefaultNumFields + 1)

/-- The pairing table of the claimed column/diagonal invariant, read off
from the branches of `is_valid_column`: the partners whose value the check
compares against the outcome being placed (the redundant self-checks
`scores[c] != dice_outcome_` aside). -/
def pairedCells (c : Nat) : List Nat :=
  if c = 8 ∨ c = 18 then []
  else if c = 13 then [22]
  else if c = 22 then [13]
  else if c = 9 ∨ c = 19 ∨ c = 2 ∨ c = 12 ∨ c = 7 ∨ c = 17 then [(c + 10) % 20]
  else if c = 3 ∨ c = 23 then [(c + 20) % 40]
  else [(c + 10) % 30, (c + 20) % 30]

/-- Row-ordering invariant (claim C4): within every colour row of every
player's board, the nonzero values are strictly increasing left to right. -/
def RowOrderInv (numPlayers : Nat) (sc : List Int) : Prop :=
  ∀ p < numPlayers, ∀ r < kDefaultNumDice, ∀ a b : Nat, a < b → b < kDefaultNumFields →
    cell sc p (r * kDefaultNumFields + a) ≠ 0 →
    cell sc p (r * kDefaultNumFields + b) ≠ 0 →
    cell sc p (r * kDefaultNumFields + a) < cell sc p (r * kDefaultNumFields + b)

/-- Column/diagonal invariant (claim C5): no two cells of one player's board
linked by the pairing table simultaneously hold equal nonzero values. -/
def PairInv (numPlayers : Nat) (sc : List Int) : Prop :=
  ∀ p < numPlayers, ∀ c < kDefaultNumDice * kDefaultNumFields, ∀ b ∈ pairedCells c,
    ¬(cell sc p c = cell sc p b ∧ cell sc p c ≠ 0)

/-! ### Basic lemmas about score-vector reads and writes -/

theorem scoreAt_set_self {l : List Int} {i : Nat} {v : Int} (h : i < l.length) :
    scoreAt (l.set i v) i = v := by
  simp [scoreAt, List.getD_eq_getElem?_getD, List.getElem?_set_self h]

theorem scoreAt_set_ne {l : List Int} {i j : Nat} {v : Int} (h : i ≠ j) :
    scoreAt (l.set i v) j = scoreAt l j := by
  simp [scoreAt, List.getD_eq_getElem?_getD, List.getElem?_set_ne h]

theorem boardSize_eq : boardSize = 28 := rfl

/-- Board-slot indices determine the player and the cell. -/
theorem slot_inj {p q x y : Nat} (hx : x < boardSize) (hy : y < boardSize)
    (h : p * boardSize + x = q * boardSize + y) : p = q ∧ x = y := by
  rw [boardSize_eq] at hx hy h
  omega

theorem ofNat_inj {m n : Nat} (h : Int.ofNat m = Int.ofNat n) : m = n := by
  simp only [Int.ofNat_eq_natCast] at h
  exact_mod_cast h

/-! ### Characterisation of `applyEach` -/

/-- Action vectors whose entries are either the skip sentinel or a slot
index `<= 27`; every legal submit-phase component has this shape. -/
def BoundedActs (acts : List Int) : Prop :=
  ∀ a ∈ acts, a = kActionSkip ∨ ∃ x : Nat, x ≤ 27 ∧ a = Int.ofNat x

theorem applyEach_length (cur : Nat) (out : Int) (acts : List Int) :
    ∀ (p0 : Nat) (sc sc' : List Int),
      applyEach cur out acts p0 sc = some sc' → sc'.length = sc.length := by
  induction acts with
  | nil => intro p0 sc sc' h; simp [applyEach] at h; simp [h]
  | cons a rest ih =>
    intro p0 sc sc' h
    simp only [applyEach] at h
    split at h
    · split at h
      · exact absurd h (by simp)
      · exact ih _ _ _ h
    · split at h
      · split at h
        · exact (ih _ _ _ h).trans (List.length_set ..)
        · exact absurd h (by simp)
      · exact (ih _ _ _ h).trans (List.length_set ..)

theorem applyEach_frame (cur : Nat) (out : Int) (acts : List Int) :
    ∀ (p0 : Nat) (sc sc' : List Int), BoundedActs acts →
      applyEach cur out acts p0 sc = some sc' →
      ∀ idx : Nat,
        (∀ k, k < acts.length → ∀ x : Nat, x ≤ 27 →
          acts.getD k 0 = Int.ofNat x → idx ≠ (p0 + k) * boardSize + x) →
        scoreAt sc' idx = scoreAt sc idx := by
  induction acts with
  | nil => intro p0 sc sc' _ h idx _; simp [applyEach] at h; simp [h]
  | cons a rest ih =>
    intro p0 sc sc' hb h idx hidx
    have hbrest : BoundedActs rest := fun x hx => hb x (List.mem_cons_of_mem a hx)
    have hidxrest : ∀ k, k < rest.length → ∀ x : Nat, x ≤ 27 →
        rest.getD k 0 = Int.ofNat x → idx ≠ (p0 + 1 + k) * boardSize + x := by
      intro k hk x hx hget
      have := hidx (k + 1) (by simpa using Nat.succ_lt_succ hk) x hx
        (by simpa [List.getD_cons_succ] using hget)
      have heq : p0 + 1 + k = p0 + (k + 1) := by omega
      rw [heq]
      exact this
    simp only [applyEach] at h
    split at h
    · -- skip
      split at h
      · exact absurd h (by simp)
      · exact ih (p0 + 1) sc sc' hbrest h idx hidxrest
    · rename_i hskip
      split at h
      · -- miss
        rename_i hmiss
        split at h
        · have hne : idx ≠ p0 * boardSize + 27 := by
            have := hidx 0 (by simp) 27 le_rfl (by simp [List.getD_cons_zero, hmiss, kActionMiss])
            simpa using this
          have := ih (p0 + 1) _ sc' hbrest h idx hidxrest
          rw [this, scoreAt_set_ne (Ne.symm hne)]
        · exact absurd h (by simp)
      · -- write
        rename_i hmiss
        rcases hb a (List.mem_cons_self a rest) with h28 | ⟨x, hx, hax⟩
        · exact absurd h28 hskip
        have hx27 : x ≠ 27 := by
          intro hx27; exact hmiss (by simp [hax, hx27, kActionMiss])
        have htoNat : a.toNat = x := by simp [hax]
        have hne : idx ≠ p0 * boardSize + x := by
          have := hidx 0 (by simp) x hx (by simp [List.getD_cons_zero, hax])
          simpa using this
        have := ih (p0 + 1) _ sc' hbrest h idx hidxrest
        rw [this, htoNat, scoreAt_set_ne (Ne.symm hne)]

theorem applyEach_target (cur : Nat) (out : Int) (acts : List Int) :
    ∀ (p0 : Nat) (sc sc' : List Int), BoundedActs acts →
      (p0 + acts.length) * boardSize ≤ sc.length →
      applyEach cur out acts p0 sc = some sc' →
      ∀ k x : Nat, k < acts.length → x ≤ 27 → acts.getD k 0 = Int.ofNat x →
        scoreAt sc' ((p0 + k) * boardSize + x) =
          if x = 27 then scoreAt sc ((p0 + k) * boardSize + 27) + kDefaultMissPoints
          else out := by
  induction acts with
  | nil => intro p0 sc sc' _ _ _ k x hk; exact absurd hk (by simp)
  | cons a rest ih =>
    intro p0 sc sc' hb hlen h k x hk hx ha
    have hbrest : BoundedActs rest := fun y hy => hb y (List.mem_cons_of_mem a hy)
    have hlenc : (p0 + (rest.length + 1)) * boardSize ≤ sc.length := by
      simpa using hlen
    simp only [applyEach] at h
    cases k with
    | zero =>
      have ha0 : a = Int.ofNat x := by simpa [List.getD_cons_zero] using ha
      have hframe : ∀ sc₁ sc₂, applyEach cur out rest (p0 + 1) sc₁ = some sc₂ →
          scoreAt sc₂ (p0 * boardSize + x) = scoreAt sc₁ (p0 * boardSize + x) := by
        intro sc₁ sc₂ happ
        refine applyEach_frame cur out rest (p0 + 1) sc₁ sc₂ hbrest happ _ ?_
        intro k' hk' y hy _
        rw [boardSize_eq]
        omega
      have hidxlt : p0 * boardSize + x < sc.length := by
        rw [boardSize_eq] at hlenc ⊢
        omega
      split at h
      · rename_i hskip
        exfalso
        rw [ha0] at hskip
        simp only [kActionSkip] at hskip
        simp only [Int.ofNat_eq_natCast] at hskip
        omega
      · split at h
        · -- miss branch: a = kActionMiss, hence x = 27
          rename_i hmiss
          have hx27 : x = 27 := by
            rw [ha0] at hmiss
            simp only [kActionMiss, Int.ofNat_eq_natCast] at hmiss
            exact_mod_cast hmiss
          split at h
          · subst hx27
            simp only [Nat.add_zero]
            rw [hframe _ _ h]
            rw [scoreAt_set_self hidxlt]
            simp
          · exact absurd h (by simp)
        · -- write branch
          rename_i hmiss
          have hx27 : x ≠ 27 := by
            intro hc
            apply hmiss
            rw [ha0, hc]
            decide
          have htoNat : a.toNat = x := by simp [ha0]
          rw [htoNat] at h
          simp only [Nat.add_zero]
          rw [hframe _ _ h]
          rw [scoreAt_set_self hidxlt]
          simp [hx27]
    | succ k' =>
      have harest : rest.getD k' 0 = Int.ofNat x := by simpa [List.getD_cons_succ] using ha
      have hk' : k' < rest.length := by simpa using Nat.lt_of_succ_lt_succ hk
      have hshift : p0 + (k' + 1) = (p0 + 1) + k' := by omega
      have hmain : ∀ sc₁, sc₁.length = sc.length →
          applyEach cur out rest (p0 + 1) sc₁ = some sc' →
          scoreAt sc' ((p0 + 1 + k') * boardSize + x) =
            if x = 27 then scoreAt sc₁ ((p0 + 1 + k') * boardSize + 27) + kDefaultMissPoints
            else out := by
        intro sc₁ hlen₁ happ
        refine ih (p0 + 1) sc₁ sc' hbrest ?_ happ k' x hk' hx harest
        rw [hlen₁, boardSize_eq]
        rw [boardSize_eq] at hlenc
        omega
      have hheadne : ∀ y : Nat, y ≤ 27 →
          p0 * boardSize + y ≠ (p0 + 1 + k') * boardSize + 27 := by
        intro y hy
        rw [boardSize_eq]
        omega
      split at h
      · split at h
        · exact absurd h (by simp)
        · rw [hshift]
          exact hmain sc rfl h
      · split at h
        · split at h
          · rw [hshift, hmain _ (List.length_set ..) h]
            split
            · rw [scoreAt_set_ne (hheadne 27 le_rfl)]
            · rfl
          · exact absurd h (by simp)
        · rename_i hskip hmiss
          rcases hb a (List.mem_cons_self a rest) with h28 | ⟨y, hy, hay⟩
          · exact absurd h28 hskip
          have htoNat : a.toNat = y := by simp [hay]
          rw [htoNat] at h
          rw [hshift, hmain _ (List.length_set ..) h]
          split
          · rw [scoreAt_set_ne (hheadne y hy)]
          · rfl

theorem applyEach_isSome (cur : Nat) (out : Int) (acts : List Int) :
    ∀ (p0 : Nat) (sc : List Int),
      (applyEach cur out acts p0 sc).isSome = true ↔
        ∀ k, k < acts.length → (acts.getD k 0 = kActionSkip → p0 + k ≠ cur) ∧
          (acts.getD k 0 = kActionMiss → p0 + k = cur) := by
  induction acts with
  | nil => intro p0 sc; simp [applyEach]
  | cons a rest ih =>
    intro p0 sc
    simp only [applyEach]
    constructor
    · intro h k hk
      match k with
      | 0 =>
        simp only [List.getD_cons_zero, Nat.add_zero]
        split at h
        · rename_i hskip
          split at h
          · simp at h
          · rename_i hpc
            exact ⟨fun _ => hpc, fun hm => absurd (hskip.symm.trans hm) (by norm_num [kActionSkip, kActionMiss])⟩
        · rename_i hskip
          split at h
          · rename_i hmiss
            split at h
            · rename_i hpc; exact ⟨fun hs => absurd hs hskip, fun _ => hpc⟩
            · simp at h
          · rename_i hmiss
            exact ⟨fun hs => absurd hs hskip, fun hm => absurd hm hmiss⟩
      | k' + 1 =>
        simp only [List.getD_cons_succ]
        have hrest : (applyEach cur out rest (p0 + 1) sc).isSome = true ∨
            ∃ sc₁, (applyEach cur out rest (p0 + 1) sc₁).isSome = true := by
          split at h
          · split at h
            · simp at h
            · exact Or.inl h
          · split at h
            · split at h
              · exact Or.inr ⟨_, h⟩
              · simp at h
            · exact Or.inr ⟨_, h⟩
        have hk' : k' < rest.length := by simpa using Nat.lt_of_succ_lt_succ hk
        rcases hrest with h1 | ⟨sc₁, h1⟩ <;>
          · have := ((ih (p0 + 1) _).mp h1) k' hk'
            constructor
            · intro hs; have := this.1 hs; omega
            · intro hm; have := this.2 hm; omega
    · intro hcond
      have h0 := hcond 0 (by simp)
      simp only [List.getD_cons_zero, Nat.add_zero] at h0
      have hrestcond : ∀ (sc₁ : List Int), (applyEach cur out rest (p0 + 1) sc₁).isSome = true := by
        intro sc₁
        refine (ih (p0 + 1) sc₁).mpr ?_
        intro k hk
        have := hcond (k + 1) (by simpa using Nat.succ_lt_succ hk)
        simp only [List.getD_cons_succ] at this
        constructor
        · intro hs; have := this.1 hs; omega
        · intro hm; have := this.2 hm; omega
      split
      · rename_i hskip
        split
        · rename_i hpc; exact absurd hpc (h0.1 hskip)
        · exact hrestcond sc
      · split
        · rename_i hmiss
          split
          · exact hrestcond _
          · rename_i hpc; exact absurd (h0.2 hmiss) hpc
        · exact hrestcond _

/-! ### Membership in the legal-action lists -/

theorem mem_submitMoves {s : QwintoState} {p : Nat} {a : Int} :
    a ∈ submitMoves s p ↔
      (∃ i : Nat, i < kDefaultNumDice * kDefaultNumFields ∧ a = Int.ofNat i ∧
        submitCellOk (fun c => cell s.scores p c) s.dice s.diceOutcome i = true) ∨
      (p = s.currentPlayer ∧ a = kActionMiss) ∨
      (p ≠ s.currentPlayer ∧ a = kActionSkip) := by
  simp only [submitMoves, List.mem_append, List.mem_map, List.mem_filter, List.mem_range,
    List.mem_singleton]
  constructor
  · rintro (⟨i, ⟨hi, hok⟩, rfl⟩ | h)
    · exact Or.inl ⟨i, hi, rfl, hok⟩
    · by_cases hc : p = s.currentPlayer
      · simp only [if_pos hc] at h
        exact Or.inr (Or.inl ⟨hc, h⟩)
      · simp only [if_neg hc] at h
        exact Or.inr (Or.inr ⟨hc, h⟩)
  · rintro (⟨i, hi, rfl, hok⟩ | ⟨hc, rfl⟩ | ⟨hc, rfl⟩)
    · exact Or.inl ⟨i, ⟨hi, hok⟩, rfl⟩
    · right; simp [hc]
    · right; simp [hc]

theorem mem_legalActionsReal_submit {numPlayers : Nat} {s : QwintoState} {p : Nat} {a : Int}
    (ht : isTerminal numPlayers s = false) (hph : s.phase = Phase.submitPoints) :
    a ∈ legalActionsReal numPlayers s p ↔ a ∈ submitMoves s p := by
  unfold legalActionsReal
  rw [ht, hph]
  simp only [Bool.false_eq_true, if_false]
  exact (List.perm_insertionSort (· ≤ ·) (submitMoves s p)).mem_iff

theorem mem_legalActionsReal_select {numPlayers : Nat} {s : QwintoState} {p : Nat} {a : Int}
    (ht : isTerminal numPlayers s = false) (hph : s.phase = Phase.selectDice) :
    a ∈ legalActionsReal numPlayers s p ↔
      ∃ x ∈ [kOrange, kPurple, kYellow, kOrange ||| kPurple, kOrange ||| kYellow,
        kPurple ||| kYellow, kOrange ||| kPurple ||| kYellow], a = Int.ofNat x := by
  unfold legalActionsReal
  rw [ht, hph]
  simp only [Bool.false_eq_true, if_false]
  rw [(List.perm_insertionSort (· ≤ ·) _).mem_iff]
  simp [eq_comm]

theorem mem_legalActionsReal_roll {numPlayers : Nat} {s : QwintoState} {p : Nat} {a : Int}
    (ht : isTerminal numPlayers s = false) (hph : s.phase = Phase.rollDice) :
    a ∈ legalActionsReal numPlayers s p ↔
      (a = 0 ∧ s.numDiceRolls < kDefaultNumDiceRolls) ∨ a = 1 := by
  unfold legalActionsReal
  rw [ht, hph]
  simp only [Bool.false_eq_true, if_false]
  rw [(List.perm_insertionSort (· ≤ ·) _).mem_iff]
  by_cases hr : s.numDiceRolls < kDefaultNumDiceRolls <;> simp [hr]

/-- Real-player legal actions when the phase is `kSubmitPoints` are the skip
sentinel or a slot index at most 27, and skip/miss are tied to the asking
player being non-active/active. -/
theorem legal_submit_component {numPlayers : Nat} {s : QwintoState} {p : Nat} {a : Int}
    (ht : isTerminal numPlayers s = false) (hph : s.phase = Phase.submitPoints)
    (hmem : a ∈ legalActionsReal numPlayers s p) :
    (a = kActionSkip ∨ ∃ x : Nat, x ≤ 27 ∧ a = Int.ofNat x) ∧
    (a = kActionSkip → p ≠ s.currentPlayer) ∧
    (a = kActionMiss → p = s.currentPlayer) := by
  rw [mem_legalActionsReal_submit ht hph, mem_submitMoves] at hmem
  rcases hmem with ⟨i, hi, rfl, _⟩ | ⟨hc, rfl⟩ | ⟨hc, rfl⟩
  · have hi27 : i ≤ 27 := by
      simp only [kDefaultNumDice, kDefaultNumFields] at hi
      omega
    refine ⟨Or.inr ⟨i, hi27, rfl⟩, ?_, ?_⟩
    · intro hsk
      exfalso
      simp only [kActionSkip, Int.ofNat_eq_natCast] at hsk
      have : i = 28 := by exact_mod_cast hsk
      simp only [kDefaultNumDice, kDefaultNumFields] at hi
      omega
    · intro hm
      exfalso
      simp only [kActionMiss, Int.ofNat_eq_natCast] at hm
      have : i = 27 := by exact_mod_cast hm
      simp only [kDefaultNumDice, kDefaultNumFields] at hi
      omega
  · exact ⟨Or.inr ⟨27, le_rfl, rfl⟩, fun hsk => absurd hsk (by decide), fun _ => hc⟩
  · exact ⟨Or.inl rfl, fun _ => hc, fun hm => absurd hm (by decide)⟩

/-- Unpacking `submitCellOk`: the four placement conditions as
propositions. -/
theorem submitCellOk_spec {g : Nat → Int} {dice : Nat} {outcome : Int} {i : Nat}
    (h : submitCellOk g dice outcome i = true) :
    dice &&& rowDie i ≠ 0 ∧ g i = 0 ∧
    (∀ j, j < i % kDefaultNumFields →
      g ((i / kDefaultNumFields) * kDefaultNumFields + j) < outcome) ∧
    (∀ j, i % kDefaultNumFields < j → j < kDefaultNumFields →
      g ((i / kDefaultNumFields) * kDefaultNumFields + j) = 0 ∨
        outcome < g ((i / kDefaultNumFields) * kDefaultNumFields + j)) ∧
    is_valid_column g outcome i = true := by
  simp only [submitCellOk, Bool.and_eq_true, decide_eq_true_eq, List.all_eq_true,
    List.mem_range, Bool.or_eq_true, gt_iff_lt] at h
  obtain ⟨⟨⟨⟨h1, h2⟩, h3⟩, h4⟩, h5⟩ := h
  refine ⟨h1, h2, fun j hj => h3 j hj, ?_, h5⟩
  intro j hj1 hj2
  have hidx : (i / kDefaultNumFields) * kDefaultNumFields + i % kDefaultNumFields + 1 +
      (j - (i % kDefaultNumFields + 1)) = (i / kDefaultNumFields) * kDefaultNumFields + j := by
    omega
  have := h4 (j - (i % kDefaultNumFields + 1)) (by omega)
  rw [hidx] at this
  exact this

/-- The explicit pairing table extracted from `is_valid_column` is
symmetric, irreflexive, and stays within the 27 score slots. -/
theorem pairedCells_symm : ∀ c, c < 27 → ∀ b ∈ pairedCells c, b < 27 ∧ c ∈ pairedCells b ∧ b ≠ c := by
  decide

/-- A successful `is_valid_column` check means no partner of `i` holds the
outcome value. -/
theorem is_valid_column_pairs {g : Nat → Int} {outcome : Int} {i : Nat}
    (hi : i < 27) (h : is_valid_column g outcome i = true) :
    ∀ b ∈ pairedCells i, g b ≠ outcome := by
  interval_cases i <;>
    simp_all [is_valid_column, pairedCells]

/-- With bounded components, `applyEach` never increases any miss slot. -/
theorem applyEach_miss_mono (cur : Nat) (out : Int) (acts : List Int) :
    ∀ (p0 : Nat) (sc sc' : List Int), BoundedActs acts →
      applyEach cur out acts p0 sc = some sc' →
      ∀ p : Nat, scoreAt sc' (p * boardSize + 27) ≤ scoreAt sc (p * boardSize + 27) := by
  induction acts with
  | nil =>
    intro p0 sc sc' _ h p
    simp only [applyEach, Option.some_inj] at h
    simp [h]
  | cons a rest ih =>
    intro p0 sc sc' hb h p
    have hbrest : BoundedActs rest := fun y hy => hb y (List.mem_cons_of_mem a hy)
    simp only [applyEach] at h
    split at h
    · split at h
      · exact absurd h (by simp)
      · exact ih (p0 + 1) sc sc' hbrest h p
    · rename_i hskip
      split at h
      · split at h
        · refine le_trans (ih (p0 + 1) _ sc' hbrest h p) ?_
          by_cases hp : p = p0
          · subst hp
            by_cases hlt : p * boardSize + 27 < sc.length
            · rw [scoreAt_set_self hlt]
              simp only [kDefaultMissPoints]
              omega
            · rw [List.set_eq_of_length_le (by omega)]
          · rw [scoreAt_set_ne (by rw [boardSize_eq]; omega)]
        · exact absurd h (by simp)
      · rename_i hmiss
        rcases hb a (List.mem_cons_self a rest) with h28 | ⟨x, hx, hax⟩
        · exact absurd h28 hskip
        have hx27 : x ≠ 27 := by
          intro hc
          apply hmiss
          rw [hax, hc]
          decide
        have htoNat : a.toNat = x := by simp [hax]
        rw [htoNat] at h
        refine le_trans (ih (p0 + 1) _ sc' hbrest h p) ?_
        rw [scoreAt_set_ne (by rw [boardSize_eq]; omega)]

/-- Full description of a joint submit application at the level of board
cells: a player's cell changes only if their own component targets it, a
targeted score cell receives the dice outcome, and a miss adds
`kDefaultMissPoints` to the miss slot. -/
theorem joint_cell_change {numPlayers : Nat} {s : QwintoState} {acts sc' : List Int}
    (hlen : s.scores.length = numPlayers * boardSize)
    (hacts : acts.length = numPlayers)
    (hb : BoundedActs acts)
    (happ : applyEach s.currentPlayer s.diceOutcome acts 0 s.scores = some sc') :
    ∀ q, q < numPlayers → ∀ y : Nat, y ≤ 27 →
      (acts.getD q 0 ≠ Int.ofNat y → cell sc' q y = cell s.scores q y) ∧
      (acts.getD q 0 = Int.ofNat y → y ≠ 27 → cell sc' q y = s.diceOutcome) ∧
      (acts.getD q 0 = Int.ofNat 27 → cell sc' q 27 = cell s.scores q 27 + kDefaultMissPoints) := by
  intro q hq y hy
  have hq' : q < acts.length := by omega
  have hbound : (0 + acts.length) * boardSize ≤ s.scores.length := by
    rw [hlen, hacts, boardSize_eq]
    omega
  refine ⟨?_, ?_, ?_⟩
  · intro hne
    unfold cell
    refine applyEach_frame _ _ acts 0 _ _ hb happ _ ?_
    intro k hk x hx hget
    by_cases hkq : k = q
    · intro hc
      rw [hkq] at hc hget
      simp only [Nat.zero_add] at hc
      have hxy : y = x := by omega
      apply hne
      rw [hget, hxy]
    · intro hc
      have hc' : q * boardSize + y = k * boardSize + x := by
        simpa using hc
      rw [boardSize_eq] at hc'
      omega
  · intro hget hy27
    have := applyEach_target _ _ acts 0 _ _ hb hbound happ q y hq' hy hget
    simp only [Nat.zero_add, if_neg hy27] at this
    unfold cell
    exact this
  · intro hget
    have := applyEach_target _ _ acts 0 _ _ hb hbound happ q 27 hq' le_rfl hget
    simp only [Nat.zero_add, if_pos rfl] at this
    unfold cell
    exact this

/-! ### The reachability invariant -/

/-- Everything that holds in every reachable state and is needed to settle
the invariant claims: the score vector keeps its size, the active player
index stays in range, the dice mask has popcount 1..3 once dice have been
selected, a chance node always sits in the roll phase, and the dice outcome
is positive once it has been rolled; finally the two board invariants. -/
structure Inv (numPlayers : Nat) (s : QwintoState) : Prop where
  len : s.scores.length = numPlayers * boardSize
  cur : s.currentPlayer < numPlayers
  phaseDice : s.phase ≠ Phase.selectDice →
    1 ≤ popcountDice s.dice ∧ popcountDice s.dice ≤ kDefaultNumDice
  chPhase : s.player = kChancePlayerId → s.phase = Phase.rollDice
  outRoll : s.phase = Phase.rollDice → 0 ≤ s.player → 1 ≤ s.diceOutcome
  outSub : s.phase = Phase.submitPoints → 1 ≤ s.diceOutcome
  rows : RowOrderInv numPlayers s.scores
  cols : PairInv numPlayers s.scores

theorem inv_init {numPlayers : Nat} (hN : 0 < numPlayers) :
    Inv numPlayers (initState numPlayers) := by
  refine ⟨by simp [initState], hN, ?_, ?_, ?_, ?_, ?_, ?_⟩
  · intro h; exact absurd rfl h
  · intro h; simp [initState, kChancePlayerId] at h
  · intro h; simp [initState] at h
  · intro h; simp [initState] at h
  · intro p _ r _ a b _ _ ha _
    exact absurd (by simp [initState, cell, scoreAt]) ha
  · intro p _ c _ b _ h
    exact h.2 (by simp [initState, cell, scoreAt])

theorem legalActions_real {numPlayers : Nat} {s : QwintoState} {p : Nat}
    (hp : p < numPlayers) :
    legalActions numPlayers s (Int.ofNat p) = some (legalActionsReal numPlayers s p) := by
  have h1 : Int.ofNat p ≠ kSimultaneousPlayerId := by
    simp only [kSimultaneousPlayerId, Int.ofNat_eq_natCast]
    omega
  have h2 : Int.ofNat p ≠ kChancePlayerId := by
    simp only [kChancePlayerId, Int.ofNat_eq_natCast]
    omega
  have h3 : Int.ofNat p ≠ kTerminalPlayerId := by
    simp only [kTerminalPlayerId, Int.ofNat_eq_natCast]
    omega
  have h4 : 0 ≤ Int.ofNat p ∧ Int.ofNat p < numPlayers := by
    simp only [Int.ofNat_eq_natCast]
    omega
  unfold legalActions
  rw [if_neg h1, if_neg h2, if_neg h3, if_pos h4]
  simp

theorem legalActionsReal_terminal {numPlayers : Nat} {s : QwintoState} {p : Nat}
    (ht : isTerminal numPlayers s = true) : legalActionsReal numPlayers s p = [] := by
  unfold legalActionsReal
  rw [ht]
  rfl

/-- The seven select-phase actions all have popcount 1..3. -/
theorem select_popcount :
    ∀ x ∈ [kOrange, kPurple, kYellow, kOrange ||| kPurple, kOrange ||| kYellow,
      kPurple ||| kYellow, kOrange ||| kPurple ||| kYellow],
      1 ≤ popcountDice x ∧ popcountDice x ≤ kDefaultNumDice := by
  decide

/-- Every id in a chance-outcome table for 1..3 dice lies in 1..18. -/
theorem outcomeTable_id_range :
    ∀ n, 1 ≤ n → n ≤ kDefaultNumDice → ∀ pr ∈ outcomeTable n, 1 ≤ pr.1 ∧ pr.1 ≤ 18 := by
  intro n h1 h3
  simp only [kDefaultNumDice] at h3
  interval_cases n <;> decide

theorem inv_step {numPlayers : Nat} {s s' : QwintoState} (hN : 0 < numPlayers)
    (hinv : Inv numPlayers s) (hstep : Step numPlayers s s') : Inv numPlayers s' := by
  cases hstep with
  | decision p a l hp hpN hleg ha happ =>
    rw [legalActions_real hpN, Option.some_inj] at hleg
    subst hleg
    have ht : isTerminal numPlayers s = false := by
      by_contra hc
      rw [legalActionsReal_terminal (by simpa using hc)] at ha
      exact absurd ha (by simp)
    have hnotsim : s.player ≠ kSimultaneousPlayerId := by
      rw [hp]
      simp only [kSimultaneousPlayerId, Int.ofNat_eq_natCast]
      omega
    have hnotch : s.player ≠ kChancePlayerId := by
      rw [hp]
      simp only [kChancePlayerId, Int.ofNat_eq_natCast]
      omega
    have hrange : 0 ≤ s.player ∧ s.player < numPlayers := by
      rw [hp]
      simp only [Int.ofNat_eq_natCast]
      omega
    cases hph : s.phase with
    | selectDice =>
      rw [mem_legalActionsReal_select ht hph] at ha
      obtain ⟨x, hxmem, rfl⟩ := ha
      have hpc := select_popcount x hxmem
      simp only [applyAction, if_neg hnotsim, if_neg hnotch, if_pos hrange, hph,
        Option.some_inj] at happ
      subst happ
      refine ⟨hinv.len, hinv.cur, ?_, ?_, ?_, ?_, hinv.rows, hinv.cols⟩
      · intro _
        simpa using hpc
      · intro _
        rfl
      · intro _ hge
        exfalso
        have h0 : (0 : Int) ≤ -1 := hge
        omega
      · intro hc
        exact Phase.noConfusion (show Phase.rollDice = Phase.submitPoints from hc)
    | rollDice =>
      simp only [applyAction, if_neg hnotsim, if_neg hnotch, if_pos hrange, hph] at happ
      by_cases ha0 : a = 0
      · rw [if_pos ha0] at happ
        split at happ
        · rename_i hrolls
          rw [Option.some_inj] at happ
          subst happ
          refine ⟨hinv.len, hinv.cur, ?_, ?_, ?_, ?_, hinv.rows, hinv.cols⟩
          · intro _
            exact hinv.phaseDice (by rw [hph]; exact fun hc => Phase.noConfusion hc)
          · intro _
            rfl
          · intro _ hge
            exfalso
            have h0 : (0 : Int) ≤ -1 := hge
            omega
          · intro hc
            exact Phase.noConfusion (show Phase.rollDice = Phase.submitPoints from hc)
        · exact absurd happ (by simp)
      · rw [if_neg ha0, Option.some_inj] at happ
        subst happ
        refine ⟨hinv.len, hinv.cur, ?_, ?_, ?_, ?_, hinv.rows, hinv.cols⟩
        · intro _
          exact hinv.phaseDice (by rw [hph]; exact fun hc => Phase.noConfusion hc)
        · intro hc
          have hc2 : kSimultaneousPlayerId = kChancePlayerId := hc
          exact absurd hc2 (by decide)
        · intro hro _
          exact absurd (show Phase.submitPoints = Phase.rollDice from hro)
            (by decide)
        · intro _
          refine hinv.outRoll hph ?_
          rw [hp, Int.ofNat_eq_natCast]
          exact Int.natCast_nonneg p
    | submitPoints =>
      simp only [applyAction, if_neg hnotsim, if_neg hnotch, if_pos hrange, hph] at happ
      exact Option.noConfusion happ
  | chance a l hp hleg ha happ =>
    unfold legalActions at hleg
    rw [if_neg (by decide), if_pos rfl] at hleg
    unfold legalChanceOutcomes chanceOutcomes at hleg
    split at hleg
    · rename_i hguard
      split at hleg
      · rename_i hn
        simp only [Option.map_some', Option.some_inj] at hleg
        subst hleg
        rw [List.mem_map] at ha
        obtain ⟨pr, hpr, rfl⟩ := ha
        have hidr := outcomeTable_id_range _ hn.1 hn.2 pr hpr
        simp only [applyAction, if_neg (show s.player ≠ kSimultaneousPlayerId by rw [hp]; decide),
          if_pos hp] at happ
        split at happ
        · rename_i hph
          rw [Option.some_inj] at happ
          subst happ
          refine ⟨hinv.len, hinv.cur, ?_, ?_, ?_, ?_, hinv.rows, hinv.cols⟩
          · intro _
            exact hinv.phaseDice (by rw [hph]; exact fun hc => Phase.noConfusion hc)
          · intro hc
            have hc2 : Int.ofNat s.currentPlayer = kChancePlayerId := hc
            simp only [kChancePlayerId, Int.ofNat_eq_natCast] at hc2
            omega
          · intro _ _
            exact hidr.1
          · intro hc
            have hc2 : s.phase = Phase.submitPoints := hc
            rw [hph] at hc2
            exact Phase.noConfusion hc2
        · exact absurd happ (by simp)
      · exact absurd hleg (by simp)
    · exact absurd hleg (by simp)
  | joint acts hp hacts hleg happ =>
    unfold applyActions at happ
    split at happ
    · rename_i hcond
      obtain ⟨hlen', hph⟩ := hcond
      split at happ
      · rename_i sc' heach
        rw [Option.some_inj] at happ
        subst happ
        have ht : isTerminal numPlayers s = false := by
          by_contra hc
          obtain ⟨l0, hl0, hmem0⟩ := hleg 0 hN
          rw [legalActions_real hN, Option.some_inj] at hl0
          subst hl0
          rw [legalActionsReal_terminal (by simpa using hc)] at hmem0
          exact absurd hmem0 (by simp)
        have hcomp : ∀ q, q < numPlayers → acts.getD q 0 ∈ legalActionsReal numPlayers s q := by
          intro q hq
          obtain ⟨l0, hl0, hmem0⟩ := hleg q hq
          rw [legalActions_real hq, Option.some_inj] at hl0
          subst hl0
          exact hmem0
        have hb : BoundedActs acts := by
          intro a hmem
          obtain ⟨k, hk, hget⟩ := List.mem_iff_getElem.mp hmem
          have hkN : k < numPlayers := by omega
          have hgetD : acts.getD k 0 = a := by
            rw [List.getD_eq_getElem _ _ hk, hget]
          exact ((legal_submit_component ht hph (hgetD ▸ hcomp k hkN)).1)
        have hchange := joint_cell_change hinv.len hacts hb heach
        have hout := hinv.outSub hph
        refine ⟨?_, ?_, ?_, ?_, ?_, ?_, ?_, ?_⟩
        · simpa [applyEach_length _ _ _ _ _ _ heach] using hinv.len
        · exact Nat.mod_lt _ hN
        · intro hc
          exact absurd rfl hc
        · intro hc
          have hc2 : Int.ofNat ((s.currentPlayer + 1) % numPlayers) = kChancePlayerId := hc
          simp only [kChancePlayerId, Int.ofNat_eq_natCast] at hc2
          omega
        · intro hc
          exact Phase.noConfusion (show Phase.selectDice = Phase.rollDice from hc)
        · intro hc
          exact Phase.noConfusion (show Phase.selectDice = Phase.submitPoints from hc)
        · -- row-order invariant is preserved
          intro q hq r hr a b hab hb9 hza hzb
          have hca : r * kDefaultNumFields + a ≤ 27 := by
            simp only [kDefaultNumDice, kDefaultNumFields] at *
            omega
          have hcb : r * kDefaultNumFields + b ≤ 27 := by
            simp only [kDefaultNumDice, kDefaultNumFields] at *
            omega
          have hchq := hchange q hq
          rcases mem_submitMoves.mp ((mem_legalActionsReal_submit ht hph).mp (hcomp q hq)) with
            ⟨i, hi27, hacti, hok⟩ | ⟨_, hacti⟩ | ⟨_, hacti⟩
          · -- the component writes the outcome into cell i
            obtain ⟨_, hempty, hleft, hright, _⟩ := submitCellOk_spec hok
            have hi27' : i ≤ 27 := by
              simp only [kDefaultNumDice, kDefaultNumFields] at hi27
              omega
            by_cases hia : i = r * kDefaultNumFields + a
            · -- new value at position a; position b unchanged and to its right
              have hvala : cell sc' q (r * kDefaultNumFields + a) = s.diceOutcome := by
                refine ((hchq _ hca).2.1 (by rw [hacti, hia]) ?_)
                simp only [kDefaultNumDice, kDefaultNumFields] at *
                omega
              have hvalb : cell sc' q (r * kDefaultNumFields + b) = cell s.scores q (r * kDefaultNumFields + b) := by
                refine (hchq _ hcb).1 ?_
                rw [hacti]
                intro hc
                have := ofNat_inj hc
                omega
              have hdivi : i / kDefaultNumFields = r ∧ i % kDefaultNumFields = a := by
                subst hia
                simp only [kDefaultNumFields] at *
                omega
              have := hright b (by rw [hdivi.2]; omega) (by omega)
              rw [hdivi.1] at this
              rcases this with hzero | hgt
              · rw [hvalb] at hzb
                exact absurd hzero hzb
              · rw [hvala, hvalb]
                exact hgt
            · by_cases hib : i = r * kDefaultNumFields + b
              · -- new value at position b; position a unchanged and to its left
                have hvalb : cell sc' q (r * kDefaultNumFields + b) = s.diceOutcome := by
                  refine ((hchq _ hcb).2.1 (by rw [hacti, hib]) ?_)
                  simp only [kDefaultNumDice, kDefaultNumFields] at *
                  omega
                have hvala : cell sc' q (r * kDefaultNumFields + a) = cell s.scores q (r * kDefaultNumFields + a) := by
                  refine (hchq _ hca).1 ?_
                  rw [hacti]
                  intro hc
                  have := ofNat_inj hc
                  omega
                have hdivi : i / kDefaultNumFields = r ∧ i % kDefaultNumFields = b := by
                  subst hib
                  simp only [kDefaultNumFields] at *
                  omega
                have := hleft a (by rw [hdivi.2]; omega)
                rw [hdivi.1] at this
                rw [hvala, hvalb]
                exact this
              · -- neither position touched
                have hvala : cell sc' q (r * kDefaultNumFields + a) = cell s.scores q (r * kDefaultNumFields + a) := by
                  refine (hchq _ hca).1 ?_
                  rw [hacti]
                  intro hc
                  exact hia (ofNat_inj hc)
                have hvalb : cell sc' q (r * kDefaultNumFields + b) = cell s.scores q (r * kDefaultNumFields + b) := by
                  refine (hchq _ hcb).1 ?_
                  rw [hacti]
                  intro hc
                  exact hib (ofNat_inj hc)
                rw [hvala, hvalb]
                rw [hvala] at hza
                rw [hvalb] at hzb
                exact hinv.rows q hq r hr a b hab hb9 hza hzb
          · -- miss component: score cells unchanged
            have hvala : cell sc' q (r * kDefaultNumFields + a) = cell s.scores q (r * kDefaultNumFields + a) := by
              refine (hchq _ hca).1 ?_
              rw [hacti]
              simp only [kActionMiss, Int.ofNat_eq_natCast]
              intro hc
              have : (27 : Nat) = r * kDefaultNumFields + a := by exact_mod_cast hc
              simp only [kDefaultNumDice, kDefaultNumFields] at *
              omega
            have hvalb : cell sc' q (r * kDefaultNumFields + b) = cell s.scores q (r * kDefaultNumFields + b) := by
              refine (hchq _ hcb).1 ?_
              rw [hacti]
              simp only [kActionMiss, Int.ofNat_eq_natCast]
              intro hc
              have : (27 : Nat) = r * kDefaultNumFields + b := by exact_mod_cast hc
              simp only [kDefaultNumDice, kDefaultNumFields] at *
              omega
            rw [hvala, hvalb]
            rw [hvala] at hza
            rw [hvalb] at hzb
            exact hinv.rows q hq r hr a b hab hb9 hza hzb
          · -- skip component: board unchanged
            have hunch : ∀ y : Nat, y ≤ 27 → cell sc' q y = cell s.scores q y := by
              intro y hy
              refine (hchq _ hy).1 ?_
              rw [hacti]
              simp only [kActionSkip, Int.ofNat_eq_natCast]
              intro hc
              have : (28 : Nat) = y := by exact_mod_cast hc
              omega
            rw [hunch _ hca, hunch _ hcb]
            rw [hunch _ hca] at hza
            rw [hunch _ hcb] at hzb
            exact hinv.rows q hq r hr a b hab hb9 hza hzb
        · -- pairing invariant is preserved
          intro q hq c hc b hbmem
          obtain ⟨hb27, hsymm, hbc⟩ := pairedCells_symm c (by simpa [kDefaultNumDice, kDefaultNumFields] using hc) b hbmem
          have hcn : c < 27 := by
            simp only [kDefaultNumDice, kDefaultNumFields] at hc
            omega
          have hc27 : c ≤ 27 := by omega
          have hb27' : b ≤ 27 := by omega
          have hchq := hchange q hq
          rcases mem_submitMoves.mp ((mem_legalActionsReal_submit ht hph).mp (hcomp q hq)) with
            ⟨i, hi27, hacti, hok⟩ | ⟨_, hacti⟩ | ⟨_, hacti⟩
          · obtain ⟨_, hempty, _, _, hcol⟩ := submitCellOk_spec hok
            have hi27n : i < 27 := by
              simpa [kDefaultNumDice, kDefaultNumFields] using hi27
            have hpairs := is_valid_column_pairs hi27n hcol
            by_cases hci : c = i
            · subst hci
              have hvalc : cell sc' q c = s.diceOutcome :=
                (hchq _ hc27).2.1 (by rw [hacti]) (by omega)
              have hvalb : cell sc' q b = cell s.scores q b := by
                refine (hchq _ hb27').1 ?_
                rw [hacti]
                intro hcq
                exact hbc (ofNat_inj hcq).symm
              intro ⟨heq, hnz⟩
              rw [hvalc, hvalb] at heq
              exact hpairs b hbmem heq.symm
            · by_cases hbi : b = i
              · subst hbi
                have hvalb : cell sc' q b = s.diceOutcome :=
                  (hchq _ hb27').2.1 (by rw [hacti]) (by omega)
                have hvalc : cell sc' q c = cell s.scores q c := by
                  refine (hchq _ hc27).1 ?_
                  rw [hacti]
                  intro hcq
                  exact hci (ofNat_inj hcq).symm
                intro ⟨heq, hnz⟩
                rw [hvalc, hvalb] at heq
                exact hpairs c hsymm heq
              · have hvalc : cell sc' q c = cell s.scores q c := by
                  refine (hchq _ hc27).1 ?_
                  rw [hacti]
                  intro hcq
                  exact hci (ofNat_inj hcq).symm
                have hvalb : cell sc' q b = cell s.scores q b := by
                  refine (hchq _ hb27').1 ?_
                  rw [hacti]
                  intro hcq
                  exact hbi (ofNat_inj hcq).symm
                rw [hvalc, hvalb]
                exact hinv.cols q hq c hc b hbmem
          · have hunch : ∀ y : Nat, y < 27 → cell sc' q y = cell s.scores q y := by
              intro y hy
              refine (hchq _ (by omega)).1 ?_
              rw [hacti]
              simp only [kActionMiss, Int.ofNat_eq_natCast]
              intro hcq
              have : (27 : Nat) = y := by exact_mod_cast hcq
              omega
            rw [hunch _ (by omega), hunch _ (by omega)]
            exact hinv.cols q hq c hc b hbmem
          · have hunch : ∀ y : Nat, y ≤ 27 → cell sc' q y = cell s.scores q y := by
              intro y hy
              refine (hchq _ hy).1 ?_
              rw [hacti]
              simp only [kActionSkip, Int.ofNat_eq_natCast]
              intro hcq
              have : (28 : Nat) = y := by exact_mod_cast hcq
              omega
            rw [hunch _ (by omega), hunch _ (by omega)]
            exact hinv.cols q hq c hc b hbmem
      · exact absurd happ (by simp)
    · exact absurd happ (by simp)

/-- Every reachable state satisfies the invariant. -/
theorem inv_of_reachable {numPlayers : Nat} (hN : 0 < numPlayers) {s : QwintoState}
    (h : Reachable numPlayers s) : Inv numPlayers s := by
  induction h with
  | refl => exact inv_init hN
  | tail _ hstep ih => exact inv_step hN ih hstep

/-! ### A concrete single-player play, used as witness input -/

/-- After the initial select action 7 (all three dice). -/
def wState1 : QwintoState :=
  { player := -1, currentPlayer := 0, numDiceRolls := 1, dice := 7, diceOutcome := 0,
    phase := Phase.rollDice, scores := List.replicate 28 0 }

/-- After the chance outcome 10. -/
def wState2 : QwintoState := { wState1 with diceOutcome := 10, player := 0 }

/-- After accepting the outcome. -/
def wState3 : QwintoState := { wState2 with phase := Phase.submitPoints, player := -2 }

/-- After the joint action `[0]` writing 10 into cell 0. -/
def wState4 : QwintoState :=
  { wState3 with
      scores := (List.replicate 28 0).set 0 10
      phase := Phase.selectDice
      player := 0
      currentPlayer := 0 }

theorem reach_wState1 : Reachable 1 wState1 :=
  Relation.ReflTransGen.single
    (Step.decision (initState 1) wState1 0 7 ((legalActionsReal 1 (initState 1) 0))
      (by decide) (by decide) (legalActions_real (by decide)) (by decide) (by decide))

theorem reach_wState2 : Reachable 1 wState2 :=
  reach_wState1.tail
    (Step.chance wState1 wState2 10 (((outcomeTable 3).map Prod.fst))
      (by decide) (by decide) (by decide) (by decide))

theorem reach_wState3 : Reachable 1 wState3 :=
  reach_wState2.tail
    (Step.decision wState2 wState3 0 1 (legalActionsReal 1 wState2 0)
      (by decide) (by decide) (legalActions_real (by decide)) (by decide) (by decide))

theorem reach_wState4 : Reachable 1 wState4 :=
  reach_wState3.tail
    (Step.joint wState3 wState4 [0] (by decide) (by decide)
      (fun p hp => by
        interval_cases p
        exact ⟨legalActionsReal 1 wState3 0, legalActions_real (by decide), by decide⟩)
      (by decide))

/-! ### Sortedness of the legal-action lists -/

theorem submitMoves_nodup (s : QwintoState) (p : Nat) : (submitMoves s p).Nodup := by
  unfold submitMoves
  rw [List.nodup_append]
  refine ⟨?_, List.nodup_singleton _, ?_⟩
  · exact ((List.nodup_range _).filter _).map fun a b h => ofNat_inj h
  · intro x hx hy
    rw [List.mem_singleton] at hy
    rw [List.mem_map] at hx
    obtain ⟨i, hi, rfl⟩ := hx
    rw [List.mem_filter, List.mem_range] at hi
    have hi27 : i < 27 := by
      simpa [kDefaultNumDice, kDefaultNumFields] using hi.1
    split at hy
    · have : i = 27 := by
        have h2 : Int.ofNat i = Int.ofNat 27 := hy
        exact ofNat_inj h2
      omega
    · have : i = 28 := by
        have h2 : Int.ofNat i = Int.ofNat 28 := hy
        exact ofNat_inj h2
      omega

theorem sorted_of_nodup_insertionSort {ml : List Int} (hnd : ml.Nodup) :
    List.Sorted (· < ·) (ml.insertionSort (· ≤ ·)) := by
  have hsorted := List.sorted_insertionSort (· ≤ ·) ml
  have hnd2 : (ml.insertionSort (· ≤ ·)).Nodup :=
    ((List.perm_insertionSort (· ≤ ·) ml).nodup_iff).mpr hnd
  exact hsorted.lt_of_le hnd2

theorem legalActionsReal_sorted (numPlayers : Nat) (s : QwintoState) (p : Nat) :
    List.Sorted (· < ·) (legalActionsReal numPlayers s p) := by
  by_cases ht : isTerminal numPlayers s
  · unfold legalActionsReal
    rw [if_pos ht]
    exact List.sorted_nil
  · have ht' : isTerminal numPlayers s = false := by simpa using ht
    cases hph : s.phase with
    | selectDice =>
      unfold legalActionsReal
      rw [ht', hph]
      simp only [Bool.false_eq_true, if_false]
      exact sorted_of_nodup_insertionSort (by decide)
    | rollDice =>
      unfold legalActionsReal
      rw [ht', hph]
      simp only [Bool.false_eq_true, if_false]
      by_cases hr : s.numDiceRolls < kDefaultNumDiceRolls
      · rw [if_pos hr]
        exact sorted_of_nodup_insertionSort (by decide)
      · rw [if_neg hr]
        exact sorted_of_nodup_insertionSort (by decide)
    | submitPoints =>
      unfold legalActionsReal
      rw [ht', hph]
      simp only [Bool.false_eq_true, if_false]
      exact sorted_of_nodup_insertionSort (submitMoves_nodup s p)

theorem outcomeTable_fst_sorted :
    ∀ n, n ≤ 3 → List.Sorted (· < ·) ((outcomeTable n).map Prod.fst) := by
  intro n h
  interval_cases n <;> decide

theorem range_map_ofNat_sorted (m : Nat) :
    List.Sorted (· < ·) ((List.range m).map Int.ofNat) := by
  refine List.Pairwise.map _ ?_ (List.pairwise_lt_range m)
  intro a b hab
  simp only [Int.ofNat_eq_natCast]
  exact_mod_cast hab

/-! ### Claim theorems -/

/-- C4: in every state reachable from the initial state by applying only
legal actions, for every player and every colour row of that player's board,
the nonzero values of the row read left to right form a strictly increasing
sequence. -/
theorem claim_row_order_invariant (numPlayers : Nat) (hN : 0 < numPlayers)
    (s : QwintoState) (h : Reachable numPlayers s) :
    RowOrderInv numPlayers s.scores :=
  (inv_of_reachable hN h).rows

theorem claim_row_order_invariant_witness : RowOrderInv 1 wState4.scores :=
  claim_row_order_invariant 1 (by decide) wState4 reach_wState4

/-- C5: in every state reachable from the initial state by applying only
legal actions, no two board cells of the same player linked by the fixed
pairing table (`pairedCells`, read off from `is_valid_column`: 8 and 18
unconstrained, 13 with 22, the listed edge cells with one partner at a
modular offset, all remaining cells with two partners) simultaneously hold
equal nonzero values. -/
theorem claim_pairing_invariant (numPlayers : Nat) (hN : 0 < numPlayers)
    (s : QwintoState) (h : Reachable numPlayers s) :
    PairInv numPlayers s.scores :=
  (inv_of_reachable hN h).cols

theorem claim_pairing_invariant_witness : PairInv 1 wState4.scores :=
  claim_pairing_invariant 1 (by decide) wState4 reach_wState4

/-- A sequential action never touches the score vector. -/
theorem applyAction_scores {numPlayers : Nat} {s s' : QwintoState} {a : Int}
    (h : applyAction numPlayers s a = some s') : s'.scores = s.scores := by
  unfold applyAction at h
  repeat' split at h
  all_goals first
    | exact Option.noConfusion h
    | (rw [Option.some_inj] at h; subst h; rfl)

/-- C7: once a state is terminal (some miss slot at or below the
termination threshold), any further application of actions keeps it
terminal.  The first conjunct covers every sequential action; the second
covers every joint submit action whose components are the skip sentinel or
slot indices 0..27 — by `legal_submit_component` every legal joint action is
of this shape, so in particular applying any legal action preserves
terminality. -/
theorem claim_terminal_absorbing (numPlayers : Nat) (s : QwintoState)
    (ht : isTerminal numPlayers s = true) :
    (∀ a s', applyAction numPlayers s a = some s' → isTerminal numPlayers s' = true) ∧
    (∀ acts s', BoundedActs acts → applyActions numPlayers s acts = some s' →
      isTerminal numPlayers s' = true) := by
  constructor
  · intro a s' h
    unfold isTerminal at ht ⊢
    rw [applyAction_scores h]
    exact ht
  · intro acts s' hb h
    unfold applyActions at h
    split at h
    · split at h
      · rename_i sc' heach
        rw [Option.some_inj] at h
        subst h
        unfold isTerminal at ht ⊢
        rw [List.any_eq_true] at ht ⊢
        obtain ⟨p, hpmem, hple⟩ := ht
        refine ⟨p, hpmem, ?_⟩
        rw [decide_eq_true_eq] at hple ⊢
        have hmono := applyEach_miss_mono _ _ acts 0 _ _ hb heach p
        have hidx : (p + 1) * boardSize - 1 = p * boardSize + 27 := by
          rw [boardSize_eq]
          omega
        rw [hidx] at hple ⊢
        exact le_trans hmono hple
      · exact Option.noConfusion h
    · exact Option.noConfusion h

/-- A terminal submit-phase state used as the C7 witness input. -/
def wTerm : QwintoState :=
  { player := -2, currentPlayer := 0, numDiceRolls := 1, dice := 7, diceOutcome := 5,
    phase := Phase.submitPoints, scores := (List.replicate 28 0).set 27 (-20) }

/-- The state after the active player misses once more at `wTerm`. -/
def wTerm2 : QwintoState :=
  { wTerm with
      scores := ((List.replicate 28 0).set 27 (-20)).set 27 (-25)
      phase := Phase.selectDice
      currentPlayer := 0
      player := 0 }

theorem claim_terminal_absorbing_witness : isTerminal 1 wTerm2 = true :=
  (claim_terminal_absorbing 1 wTerm (by decide)).2 [27] wTerm2
    (by
      intro a ha
      rw [List.mem_singleton] at ha
      exact Or.inr ⟨27, le_rfl, by rw [ha]; rfl⟩)
    (by decide)

/-! ### A concrete two-player play reaching a submit node where a
non-active player has an illegal non-skip option -/

/-- Player 0 selected all three dice. -/
def w2a : QwintoState :=
  { player := -1, currentPlayer := 0, numDiceRolls := 1, dice := 7, diceOutcome := 0,
    phase := Phase.rollDice, scores := List.replicate 56 0 }

/-- Chance rolled 5. -/
def w2b : QwintoState := { w2a with diceOutcome := 5, player := 0 }

/-- Player 0 accepted the outcome. -/
def w2c : QwintoState := { w2b with phase := Phase.submitPoints, player := -2 }

/-- Joint action `[0, skip]`: player 0 wrote 5 into cell 0. -/
def w2d : QwintoState :=
  { w2c with
      scores := (List.replicate 56 0).set 0 5
      phase := Phase.selectDice
      currentPlayer := 1
      player := 1 }

/-- Player 1 selected all three dice. -/
def w2e : QwintoState :=
  { w2d with dice := 7, player := -1, phase := Phase.rollDice, numDiceRolls := 1 }

/-- Chance rolled 5 again. -/
def w2f : QwintoState := { w2e with diceOutcome := 5, player := 1 }

/-- Player 1 accepted: submit phase, active player 1, outcome 5, while
player 0 already holds 5 in cell 0. -/
def w2g : QwintoState := { w2f with phase := Phase.submitPoints, player := -2 }

theorem reach_w2g : Reachable 2 w2g := by
  have h1 : Step 2 (initState 2) w2a :=
    Step.decision _ _ 0 7 (legalActionsReal 2 (initState 2) 0)
      (by decide) (by decide) (legalActions_real (by decide)) (by decide) (by decide)
  have h2 : Step 2 w2a w2b :=
    Step.chance _ _ 5 ((outcomeTable 3).map Prod.fst)
      (by decide) (by decide) (by decide) (by decide)
  have h3 : Step 2 w2b w2c :=
    Step.decision _ _ 0 1 (legalActionsReal 2 w2b 0)
      (by decide) (by decide) (legalActions_real (by decide)) (by decide) (by decide)
  have h4 : Step 2 w2c w2d :=
    Step.joint _ _ [0, 28] (by decide) (by decide)
      (fun p hp => by
        interval_cases p
        · exact ⟨legalActionsReal 2 w2c 0, legalActions_real (by decide), by decide⟩
        · exact ⟨legalActionsReal 2 w2c 1, legalActions_real (by decide), by decide⟩)
      (by decide)
  have h5 : Step 2 w2d w2e :=
    Step.decision _ _ 1 7 (legalActionsReal 2 w2d 1)
      (by decide) (by decide) (legalActions_real (by decide)) (by decide) (by decide)
  have h6 : Step 2 w2e w2f :=
    Step.chance _ _ 5 ((outcomeTable 3).map Prod.fst)
      (by decide) (by decide) (by decide) (by decide)
  have h7 : Step 2 w2f w2g :=
    Step.decision _ _ 1 1 (legalActionsReal 2 w2f 1)
      (by decide) (by decide) (legalActions_real (by decide)) (by decide) (by decide)
  exact ((((((Relation.ReflTransGen.single h1).tail h2).tail h3).tail h4).tail
    h5).tail h6).tail h7

/-- C1 counterexample: at the reachable submit node `w2g` (active player 1,
outcome 5), the non-active player 0's component 0 targets cell 0, which is
not legal for player 0 at this outcome (0 is not in player 0's legal list —
the cell is already filled with the outcome value), yet `DoApplyActions`
applies the joint action `[0, miss]` without any fatal error. -/
theorem claim_submit_validation_counterexample :
    Reachable 2 w2g ∧ w2g.phase = Phase.submitPoints ∧ w2g.currentPlayer = 1 ∧
    legalActions 2 w2g 0 =
      some [9, 11, 12, 13, 14, 15, 16, 17, 18, 19, 21, 22, 23, 24, 25, 26, 28] ∧
    (0 : Int) ∉ [(9 : Int), 11, 12, 13, 14, 15, 16, 17, 18, 19, 21, 22, 23, 24, 25, 26, 28] ∧
    (applyActions 2 w2g [0, kActionMiss]).isSome = true :=
  ⟨reach_w2g, rfl, rfl, by decide, by decide, by decide⟩

/-- C1 amended: when a joint action is applied in the SubmitPoints phase the
engine validates only the vector length, the phase, and the ownership of the
sentinels (skip is fatal for the active player, miss is fatal for a
non-active player); a non-skip, non-miss component is applied without any
further legality re-validation, so no fatal error distinguishes legal from
illegal cell targets. -/
theorem claim_submit_validation (numPlayers : Nat) (s : QwintoState) (acts : List Int) :
    (applyActions numPlayers s acts).isSome = true ↔
      (acts.length = numPlayers ∧ s.phase = Phase.submitPoints ∧
        ∀ p, p < numPlayers →
          (acts.getD p 0 = kActionSkip → p ≠ s.currentPlayer) ∧
          (acts.getD p 0 = kActionMiss → p = s.currentPlayer)) := by
  constructor
  · intro h
    unfold applyActions at h
    split at h
    · rename_i hcond
      refine ⟨hcond.1, hcond.2, ?_⟩
      intro p hp
      have hsome : (applyEach s.currentPlayer s.diceOutcome acts 0 s.scores).isSome = true := by
        rcases heach : applyEach s.currentPlayer s.diceOutcome acts 0 s.scores with _ | sc
        · rw [heach] at h
          simp at h
        · rfl
      have hp' : p < acts.length := by
        rw [hcond.1]
        exact hp
      have := (applyEach_isSome _ _ acts 0 s.scores).mp hsome p hp'
      simpa using this
    · simp at h
  · rintro ⟨h1, h2, h3⟩
    unfold applyActions
    rw [if_pos ⟨h1, h2⟩]
    have hsome : (applyEach s.currentPlayer s.diceOutcome acts 0 s.scores).isSome = true := by
      refine (applyEach_isSome _ _ acts 0 s.scores).mpr ?_
      intro k hk
      have := h3 k (by omega)
      simpa using this
    rcases heach : applyEach s.currentPlayer s.diceOutcome acts 0 s.scores with _ | sc
    · rw [heach] at hsome
      simp at hsome
    · simp [heach]

/-- C2 counterexample: at the reachable submit node `wState3` (outcome 10,
empty board), cell index 1 is in the legal list although the cell to its
left (cell 0) is zero, refuting "all cells to the left are non-zero". -/
theorem claim_submit_left_nonzero_counterexample :
    Reachable 1 wState3 ∧ wState3.phase = Phase.submitPoints ∧
    legalActions 1 wState3 0 = some ((List.range 28).map Int.ofNat) ∧
    (1 : Int) ∈ (List.range 28).map Int.ofNat ∧
    cell wState3.scores 0 0 = 0 :=
  ⟨reach_wState3, rfl, by decide, by decide, by decide⟩

/-- C2 amended: in the SubmitPoints phase a board cell index `i` is in a
player's legal list only if every cell to its left in the same row is
strictly less than the current dice outcome (zero cells pass this check
too — the code compares `a < dice_outcome_` without requiring the left
cells to be non-zero) and every cell to its right is zero or strictly
greater than the outcome. -/
theorem claim_submit_order_conditions (numPlayers : Nat) (s : QwintoState) (p : Nat)
    (l : List Int) (i : Nat) (hp : p < numPlayers) (hph : s.phase = Phase.submitPoints)
    (hl : legalActions numPlayers s (Int.ofNat p) = some l)
    (hi : Int.ofNat i ∈ l) (hi27 : i < kDefaultNumDice * kDefaultNumFields) :
    (∀ j, j < i % kDefaultNumFields →
      cell s.scores p ((i / kDefaultNumFields) * kDefaultNumFields + j) < s.diceOutcome) ∧
    (∀ j, i % kDefaultNumFields < j → j < kDefaultNumFields →
      cell s.scores p ((i / kDefaultNumFields) * kDefaultNumFields + j) = 0 ∨
        s.diceOutcome < cell s.scores p ((i / kDefaultNumFields) * kDefaultNumFields + j)) := by
  rw [legalActions_real hp, Option.some_inj] at hl
  subst hl
  have ht : isTerminal numPlayers s = false := by
    by_contra hc
    rw [legalActionsReal_terminal (by simpa using hc)] at hi
    exact absurd hi (by simp)
  rw [mem_legalActionsReal_submit ht hph, mem_submitMoves] at hi
  have hi27' : i < 27 := by
    simpa [kDefaultNumDice, kDefaultNumFields] using hi27
  rcases hi with ⟨i2, hi2, heq, hok⟩ | ⟨_, heq⟩ | ⟨_, heq⟩
  · obtain rfl : i = i2 := ofNat_inj heq
    obtain ⟨_, _, hleft, hright, _⟩ := submitCellOk_spec hok
    exact ⟨hleft, hright⟩
  · exfalso
    have h2 : Int.ofNat i = Int.ofNat 27 := heq
    have := ofNat_inj h2
    omega
  · exfalso
    have h2 : Int.ofNat i = Int.ofNat 28 := heq
    have := ofNat_inj h2
    omega

theorem claim_submit_order_conditions_witness :
    cell wState3.scores 0 ((5 / kDefaultNumFields) * kDefaultNumFields + 2) <
      wState3.diceOutcome :=
  (claim_submit_order_conditions 1 wState3 0 ((List.range 28).map Int.ofNat) 5
    (by decide) rfl (by decide) (by decide) (by decide)).1 2 (by decide)

/-- C8: applying a legal joint action in the SubmitPoints phase resets the
phase to SelectDice, advances `current_player_` round-robin, keeps the score
vector's length, and changes exactly the slots targeted by non-skip
components: a cell component receives the dice outcome, the active player's
miss component adds `kDefaultMissPoints` to that player's miss slot, and
every slot not targeted by its owner's component is unchanged. -/
theorem claim_joint_action_effect (numPlayers : Nat) (s s' : QwintoState) (acts : List Int)
    (hlen : s.scores.length = numPlayers * boardSize)
    (hph : s.phase = Phase.submitPoints)
    (hacts : acts.length = numPlayers)
    (hleg : ∀ p, p < numPlayers → ∃ l, legalActions numPlayers s (Int.ofNat p) = some l ∧
      acts.getD p 0 ∈ l)
    (happ : applyActions numPlayers s acts = some s') :
    s'.phase = Phase.selectDice ∧
    s'.currentPlayer = (s.currentPlayer + 1) % numPlayers ∧
    s'.scores.length = s.scores.length ∧
    ∀ q, q < numPlayers → ∀ y : Nat, y ≤ 27 →
      (acts.getD q 0 ≠ Int.ofNat y → cell s'.scores q y = cell s.scores q y) ∧
      (acts.getD q 0 = Int.ofNat y → y ≠ 27 → cell s'.scores q y = s.diceOutcome) ∧
      (acts.getD q 0 = Int.ofNat 27 →
        cell s'.scores q 27 = cell s.scores q 27 + kDefaultMissPoints) := by
  unfold applyActions at happ
  rw [if_pos ⟨hacts, hph⟩] at happ
  rcases heach : applyEach s.currentPlayer s.diceOutcome acts 0 s.scores with _ | sc
  · rw [heach] at happ
    exact Option.noConfusion happ
  · rw [heach, Option.some_inj] at happ
    subst happ
    have hb : BoundedActs acts := by
      intro a hmem
      obtain ⟨k, hk, hget⟩ := List.mem_iff_getElem.mp hmem
      have hgetD : acts.getD k 0 = a := by
        rw [List.getD_eq_getElem _ _ hk, hget]
      have hkN : k < numPlayers := by omega
      obtain ⟨l, hl, hmem2⟩ := hleg k hkN
      rw [legalActions_real hkN, Option.some_inj] at hl
      subst hl
      by_cases ht : isTerminal numPlayers s
      · rw [legalActionsReal_terminal (by simpa using ht)] at hmem2
        exact absurd hmem2 (by simp)
      · exact (legal_submit_component (by simpa using ht) hph (hgetD ▸ hmem2)).1
    exact ⟨rfl, rfl, applyEach_length _ _ _ _ _ _ heach,
      joint_cell_change hlen hacts hb heach⟩

theorem claim_joint_action_effect_witness :
    w2d.phase = Phase.selectDice ∧ w2d.currentPlayer = (w2c.currentPlayer + 1) % 2 ∧
    cell w2d.scores 0 0 = w2c.diceOutcome ∧
    cell w2d.scores 0 5 = cell w2c.scores 0 5 ∧
    cell w2d.scores 1 3 = cell w2c.scores 1 3 := by
  have hleg : ∀ p, p < 2 → ∃ l, legalActions 2 w2c (Int.ofNat p) = some l ∧
      ([0, 28] : List Int).getD p 0 ∈ l := fun p hp => by
    interval_cases p
    · exact ⟨legalActionsReal 2 w2c 0, legalActions_real (by decide), by decide⟩
    · exact ⟨legalActionsReal 2 w2c 1, legalActions_real (by decide), by decide⟩
  have h := claim_joint_action_effect 2 w2c w2d [0, 28] (by decide) rfl (by decide)
    hleg (by decide)
  exact ⟨h.1, h.2.1,
    (h.2.2.2 0 (by decide) 0 (by decide)).2.1 (by decide) (by decide),
    (h.2.2.2 0 (by decide) 5 (by decide)).1 (by decide),
    (h.2.2.2 1 (by decide) 3 (by decide)).1 (by decide)⟩

/-- The convolution counts for one, two and three dice, evaluated. -/
theorem dieCount_vals :
    (dieCount 1 1 = 1 ∧ dieCount 1 2 = 1 ∧ dieCount 1 3 = 1 ∧ dieCount 1 4 = 1 ∧ dieCount 1 5 = 1 ∧ dieCount 1 6 = 1) ∧
    (dieCount 2 2 = 1 ∧ dieCount 2 3 = 2 ∧ dieCount 2 4 = 3 ∧ dieCount 2 5 = 4 ∧ dieCount 2 6 = 5 ∧ dieCount 2 7 = 6 ∧ dieCount 2 8 = 5 ∧ dieCount 2 9 = 4 ∧ dieCount 2 10 = 3 ∧ dieCount 2 11 = 2 ∧ dieCount 2 12 = 1) ∧
    (dieCount 3 3 = 1 ∧ dieCount 3 4 = 3 ∧ dieCount 3 5 = 6 ∧ dieCount 3 6 = 10 ∧ dieCount 3 7 = 15 ∧ dieCount 3 8 = 21 ∧ dieCount 3 9 = 25 ∧ dieCount 3 10 = 27 ∧ dieCount 3 11 = 27 ∧ dieCount 3 12 = 25 ∧ dieCount 3 13 = 21 ∧ dieCount 3 14 = 15 ∧ dieCount 3 15 = 10 ∧ dieCount 3 16 = 6 ∧ dieCount 3 17 = 3 ∧ dieCount 3 18 = 1) := by
  decide

/-- The three chance tables are exactly the convolution pmf of 1..3 fair
dice: support n..6n in order, probability `dieCount n s / 6 ^ n` for each
entry, all positive, total mass 1. -/
theorem outcomeTable_pmf :
    ∀ n, 1 ≤ n → n ≤ 3 →
      (outcomeTable n).map Prod.fst =
        (List.range (5 * n + 1)).map (fun k => Int.ofNat (n + k)) ∧
      (∀ pr ∈ outcomeTable n,
        pr.2 = (dieCount n pr.1.toNat : ℚ) / 6 ^ n ∧ 0 < pr.2) ∧
      ((outcomeTable n).map Prod.snd).sum = 1 := by
  obtain ⟨⟨e11, e12, e13, e14, e15, e16⟩, ⟨e22, e23, e24, e25, e26, e27, e28, e29, e210, e211, e212⟩, ⟨e33, e34, e35, e36, e37, e38, e39, e310, e311, e312, e313, e314, e315, e316, e317, e318⟩⟩ := dieCount_vals
  intro n h1 h3
  interval_cases n
  · refine ⟨by decide, ?_, by norm_num [outcomeTable]⟩
    intro pr hpr
    simp only [outcomeTable] at hpr
    fin_cases hpr <;>
      exact ⟨by simp [e11, e12, e13, e14, e15, e16, show (6:ℚ)^1 = 6 from by norm_num], by norm_num⟩
  · refine ⟨by decide, ?_, by norm_num [outcomeTable]⟩
    intro pr hpr
    simp only [outcomeTable] at hpr
    fin_cases hpr <;>
      exact ⟨by simp [e22, e23, e24, e25, e26, e27, e28, e29, e210, e211, e212, show (6:ℚ)^2 = 36 from by norm_num], by norm_num⟩
  · refine ⟨by decide, ?_, by norm_num [outcomeTable]⟩
    intro pr hpr
    simp only [outcomeTable] at hpr
    fin_cases hpr <;>
      exact ⟨by simp [e33, e34, e35, e36, e37, e38, e39, e310, e311, e312, e313, e314, e315, e316, e317, e318, show (6:ℚ)^3 = 216 from by norm_num], by norm_num⟩

/-- C3: at every reachable chance node, ChanceOutcomes returns, for the n
selected dice (n in 1..3, the popcount of the dice bitmask), exactly the
probability mass function of the sum of n fair six-sided dice: support
exactly the integers n..6n, each probability the convolution count
`dieCount n s` over denominator `6 ^ n`, and total mass 1. -/
theorem claim_chance_outcomes_exact (numPlayers : Nat) (s : QwintoState)
    (hN : 0 < numPlayers) (hr : Reachable numPlayers s)
    (ht : isTerminal numPlayers s = false) (hch : s.player = kChancePlayerId) :
    1 ≤ popcountDice s.dice ∧ popcountDice s.dice ≤ kDefaultNumDice ∧
    chanceOutcomes numPlayers s = some (outcomeTable (popcountDice s.dice)) ∧
    (outcomeTable (popcountDice s.dice)).map Prod.fst =
      (List.range (5 * popcountDice s.dice + 1)).map
        (fun k => Int.ofNat (popcountDice s.dice + k)) ∧
    (∀ pr ∈ outcomeTable (popcountDice s.dice),
      pr.2 = (dieCount (popcountDice s.dice) pr.1.toNat : ℚ) / 6 ^ popcountDice s.dice ∧
      0 < pr.2) ∧
    ((outcomeTable (popcountDice s.dice)).map Prod.snd).sum = 1 := by
  have hinv := inv_of_reachable hN hr
  have hph := hinv.chPhase hch
  have hpc := hinv.phaseDice (by rw [hph]; exact fun hc => Phase.noConfusion hc)
  have h3 : popcountDice s.dice ≤ 3 := by
    simpa [kDefaultNumDice] using hpc.2
  obtain ⟨hfst, hprob, hsum⟩ := outcomeTable_pmf (popcountDice s.dice) hpc.1 h3
  refine ⟨hpc.1, hpc.2, ?_, hfst, hprob, hsum⟩
  unfold chanceOutcomes
  rw [if_pos ⟨ht, hch⟩, if_pos hpc]

theorem claim_chance_outcomes_exact_witness :
    chanceOutcomes 1 wState1 = some (outcomeTable (popcountDice wState1.dice)) ∧
    ((outcomeTable (popcountDice wState1.dice)).map Prod.snd).sum = 1 :=
  ⟨(claim_chance_outcomes_exact 1 wState1 (by decide) reach_wState1 (by decide)
      rfl).2.2.1,
    (claim_chance_outcomes_exact 1 wState1 (by decide) reach_wState1 (by decide)
      rfl).2.2.2.2.2⟩

/-- C9 counterexample: the initial state is reachable and is not a chance
node, and there `LegalActions` with the chance sentinel is a fatal error
(the underlying `ChanceOutcomes` call checks `IsChanceNode()`), not a
strictly ascending sequence. -/
theorem claim_legal_actions_sorted_counterexample :
    Reachable 1 (initState 1) ∧ legalActions 1 (initState 1) kChancePlayerId = none :=
  ⟨Relation.ReflTransGen.refl, by decide⟩

/-- C9 amended: for every reachable state, LegalActions returns a strictly
ascending duplicate-free sequence for every real player index, for the
simultaneous sentinel, and for the terminal sentinel (the empty list); for
the chance sentinel it does so at chance nodes, while at a non-chance node
that query is a fatal error. -/
theorem claim_legal_actions_sorted (numPlayers : Nat) (s : QwintoState)
    (hN : 0 < numPlayers) (hr : Reachable numPlayers s) :
    (∀ p : Nat, p < numPlayers → ∃ l, legalActions numPlayers s (Int.ofNat p) = some l ∧
      List.Sorted (· < ·) l) ∧
    (∃ l, legalActions numPlayers s kSimultaneousPlayerId = some l ∧
      List.Sorted (· < ·) l) ∧
    legalActions numPlayers s kTerminalPlayerId = some [] ∧
    (isTerminal numPlayers s = false → s.player = kChancePlayerId →
      ∃ l, legalActions numPlayers s kChancePlayerId = some l ∧
        List.Sorted (· < ·) l) := by
  refine ⟨?_, ?_, ?_, ?_⟩
  · intro p hp
    exact ⟨_, legalActions_real hp, legalActionsReal_sorted numPlayers s p⟩
  · refine ⟨legalFlatJointActions numPlayers s, ?_, ?_⟩
    · unfold legalActions
      rw [if_pos rfl]
    · unfold legalFlatJointActions
      exact range_map_ofNat_sorted _
  · unfold legalActions
    rw [if_neg (by decide), if_neg (by decide), if_pos rfl]
  · intro ht hch
    have hinv := inv_of_reachable hN hr
    have hph := hinv.chPhase hch
    have hpc := hinv.phaseDice (by rw [hph]; exact fun hc => Phase.noConfusion hc)
    refine ⟨(outcomeTable (popcountDice s.dice)).map Prod.fst, ?_, ?_⟩
    · unfold legalActions
      rw [if_neg (by decide), if_pos rfl]
      unfold legalChanceOutcomes chanceOutcomes
      rw [if_pos ⟨ht, hch⟩, if_pos hpc]
      rfl
    · exact outcomeTable_fst_sorted _ (by simpa [kDefaultNumDice] using hpc.2)

theorem claim_legal_actions_sorted_witness :
    legalActions 1 wState1 kTerminalPlayerId = some [] :=
  (claim_legal_actions_sorted 1 wState1 (by decide) reach_wState1).2.2.1

/-- The scoring law exactly as claim C6 words it, with "filled" read as
nonzero: per colour row, the last field's value if all 9 fields are filled,
otherwise the count of filled fields. -/
def claimRowScore (g : Nat → Int) (r : Nat) : Int :=
  if ∀ j ∈ List.range kDefaultNumFields, g (r * kDefaultNumFields + j) ≠ 0 then
    g (r * kDefaultNumFields + (kDefaultNumFields - 1))
  else
    Int.ofNat (((List.range kDefaultNumFields).filter
      fun j => decide (g (r * kDefaultNumFields + j) ≠ 0)).length)

/-- The diagonal bonuses as claim C6 words them: for each of the five fixed
triples whose three cells are all nonzero, the designated member's value. -/
def claimDiagScore (g : Nat → Int) : Int :=
  (if g 0 ≠ 0 ∧ g 10 ≠ 0 ∧ g 20 ≠ 0 then g 20 else 0) +
  (if g 1 ≠ 0 ∧ g 11 ≠ 0 ∧ g 21 ≠ 0 then g 1 else 0) +
  (if g 4 ≠ 0 ∧ g 14 ≠ 0 ∧ g 24 ≠ 0 then g 4 else 0) +
  (if g 5 ≠ 0 ∧ g 15 ≠ 0 ∧ g 25 ≠ 0 then g 15 else 0) +
  (if g 6 ≠ 0 ∧ g 16 ≠ 0 ∧ g 26 ≠ 0 then g 26 else 0)

/-- Claim C6's per-player total: the three row contributions, the diagonal
bonuses, and the accumulated miss slot. -/
def claimPlayerScore (sc : List Int) (p : Nat) : Int :=
  claimRowScore (fun c => cell sc p c) 0 + claimRowScore (fun c => cell sc p c) 1 +
    claimRowScore (fun c => cell sc p c) 2 + claimDiagScore (fun c => cell sc p c) +
    cell sc p (kDefaultNumDice * kDefaultNumFields)

theorem rowContribution_eq_claim {g : Nat → Int} {r : Nat}
    (hnn : ∀ j, j < kDefaultNumFields → 0 ≤ g (r * kDefaultNumFields + j)) :
    rowContribution g r = claimRowScore g r := by
  unfold rowContribution claimRowScore
  have hfilter :
      (List.range kDefaultNumFields).filter
          (fun j => decide (0 < g (r * kDefaultNumFields + j))) =
        (List.range kDefaultNumFields).filter
          (fun j => decide (g (r * kDefaultNumFields + j) ≠ 0)) := by
    apply List.filter_congr
    intro j hj
    rw [List.mem_range] at hj
    have := hnn j hj
    simp only [decide_eq_decide]
    omega
  rw [hfilter]
  have hiff :
      (((List.range kDefaultNumFields).filter
          (fun j => decide (g (r * kDefaultNumFields + j) ≠ 0))).length =
        kDefaultNumFields) ↔
      ∀ j ∈ List.range kDefaultNumFields, g (r * kDefaultNumFields + j) ≠ 0 := by
    constructor
    · intro hc
      have h2 : List.countP (fun j => decide (g (r * kDefaultNumFields + j) ≠ 0))
          (List.range kDefaultNumFields) = (List.range kDefaultNumFields).length := by
        rw [List.countP_eq_length_filter, hc, List.length_range]
      intro j hj
      simpa using List.countP_eq_length.mp h2 j hj
    · intro hall
      have h2 : List.countP (fun j => decide (g (r * kDefaultNumFields + j) ≠ 0))
          (List.range kDefaultNumFields) = (List.range kDefaultNumFields).length :=
        List.countP_eq_length.mpr fun a ha => by simpa using hall a ha
      rw [List.countP_eq_length_filter] at h2
      rw [h2, List.length_range]
  by_cases hall : ∀ j ∈ List.range kDefaultNumFields, g (r * kDefaultNumFields + j) ≠ 0
  · rw [if_pos (hiff.mpr hall), if_pos hall]
  · rw [if_neg (fun hc => hall (hiff.mp hc)), if_neg hall]

theorem diagBonus_eq_claim {g : Nat → Int}
    (hnn : ∀ c, c < kDefaultNumDice * kDefaultNumFields → 0 ≤ g c) :
    diagBonus g = claimDiagScore g := by
  have hprop : ∀ c, c < 27 → (0 < g c) = (g c ≠ 0) := by
    intro c hc
    have := hnn c (by simpa [kDefaultNumDice, kDefaultNumFields] using hc)
    apply propext
    omega
  unfold diagBonus claimDiagScore
  simp only [hprop 0 (by norm_num), hprop 10 (by norm_num), hprop 20 (by norm_num),
    hprop 1 (by norm_num), hprop 11 (by norm_num), hprop 21 (by norm_num),
    hprop 4 (by norm_num), hprop 14 (by norm_num), hprop 24 (by norm_num),
    hprop 5 (by norm_num), hprop 15 (by norm_num), hprop 25 (by norm_num),
    hprop 6 (by norm_num), hprop 16 (by norm_num), hprop 26 (by norm_num)]

theorem playerReturn_eq_claim {sc : List Int} {p : Nat}
    (hnn : ∀ c, c < kDefaultNumDice * kDefaultNumFields → 0 ≤ cell sc p c) :
    playerReturn sc p = claimPlayerScore sc p := by
  unfold playerReturn claimPlayerScore
  have hrow : ∀ r, r < kDefaultNumDice →
      rowContribution (fun c => cell sc p c) r = claimRowScore (fun c => cell sc p c) r := by
    intro r hr
    refine rowContribution_eq_claim ?_
    intro j hj
    refine hnn _ ?_
    simp only [kDefaultNumDice, kDefaultNumFields] at *
    omega
  rw [hrow 0 (by norm_num [kDefaultNumDice]), hrow 1 (by norm_num [kDefaultNumDice]),
    hrow 2 (by norm_num [kDefaultNumDice]), diagBonus_eq_claim hnn]

/-- C6: on a terminal state, Returns gives each player the sum of the row
contributions (the last field's value when all 9 fields are filled, else
the count of filled fields), the five diagonal bonuses (the designated
member's value when a triple is fully nonzero), and the accumulated miss
slot; on a non-terminal state every player's return is 0.  The score cells
of a player are nonnegative in every reachable state (they are 0 or hold a
dice outcome), which the nonnegativity hypothesis captures. -/
theorem claim_returns_formula (numPlayers : Nat) (s : QwintoState) (p : Nat)
    (hp : p < numPlayers)
    (hnn : ∀ c, c < kDefaultNumDice * kDefaultNumFields → 0 ≤ cell s.scores p c) :
    (isTerminal numPlayers s = true →
      (returns numPlayers s).getD p 0 = claimPlayerScore s.scores p) ∧
    (isTerminal numPlayers s = false → (returns numPlayers s).getD p 0 = 0) := by
  constructor
  · intro ht
    unfold returns
    rw [ht]
    simp only [Bool.true_eq_false, if_false]
    have hplen : p < ((List.range numPlayers).map
        (fun q => playerReturn s.scores q)).length := by
      simpa using hp
    rw [List.getD_eq_getElem _ _ hplen, List.getElem_map]
    simp only [List.getElem_range]
    exact playerReturn_eq_claim hnn
  · intro ht
    unfold returns
    rw [ht]
    simp only [eq_self_iff_true, if_true]
    rw [List.getD_eq_getElem?_getD, List.getElem?_replicate]
    split <;> rfl

/-- A terminal one-player state with a fully filled top row
(2,5,7,9,11,13,14,16,18), one diagonal triple (cells 0, 10, 20), and four
misses. -/
def wScore : QwintoState :=
  { player := 0, currentPlayer := 0, numDiceRolls := 1, dice := 7, diceOutcome := 18,
    phase := Phase.selectDice,
    scores := [2, 5, 7, 9, 11, 13, 14, 16, 18, 3, 0, 0, 0, 0, 0, 0, 0, 0, 4, 0, 0,
      0, 0, 0, 0, 0, 0, -25] }

theorem claim_returns_formula_witness :
    (returns 1 wScore).getD 0 0 = claimPlayerScore wScore.scores 0 ∧
    (returns 1 wScore).getD 0 0 = -5 :=
  ⟨(claim_returns_formula 1 wScore 0 (by decide) (by decide)).1 (by decide),
    by decide⟩

/-- C10: for every real player index, ObservationTensor writes exactly
`3 + kDefaultNumDiceRolls + kDefaultNumDice + 18 + N + N * boardSize`
values (phase, re-roll, selected-dice, dice-outcome, current-player blocks
and all players' raw boards), which equals the declared
ObservationTensorShape size, so the final length assertion never fails. -/
theorem claim_observation_tensor_length (numPlayers : Nat) (s : QwintoState) (p : Nat)
    (hp : p < numPlayers) (hlen : s.scores.length = numPlayers * boardSize) :
    (observationTensor numPlayers s p).map List.length =
      some (3 + kDefaultNumDiceRolls + kDefaultNumDice + 18 + numPlayers +
        numPlayers * (kDefaultNumDice * kDefaultNumFields + 1)) ∧
    observationTensorSize numPlayers =
      3 + kDefaultNumDiceRolls + kDefaultNumDice + 18 + numPlayers +
        numPlayers * (kDefaultNumDice * kDefaultNumFields + 1) := by
  refine ⟨?_, rfl⟩
  unfold observationTensor
  rw [if_pos hp]
  simp only [Option.map_some', Option.some_inj, List.length_append, List.length_map,
    List.length_range, List.length_cons, List.length_nil, hlen]
  simp only [boardSize, kDefaultNumDice, kDefaultNumFields, kDefaultNumDiceRolls]

theorem claim_observation_tensor_length_witness :
    (observationTensor 1 (initState 1) 0).map List.length =
      some (3 + kDefaultNumDiceRolls + kDefaultNumDice + 18 + 1 +
        1 * (kDefaultNumDice * kDefaultNumFields + 1)) :=
  (claim_observation_tensor_length 1 (initState 1) 0 (by decide) (by decide)).1

end Qwinto
